import Mathlib

/-!
Verification of the colocalization metrics engine of
`cellprofiler/modules/measurecolocalization.py` (`MeasureColocalization`):
a shallow embedding of `run_image_pair_images` and `run_image_pair_objects`
with the statistical kernels (Pearson correlation/slope, Manders, Overlap/K,
RWC, Costes automated threshold search), followed by theorems settling the
spec claims.

Modelling conventions:
* numpy float64 values are modelled by `MC.F`: an exact rational for finite
  values plus `nan`, `inf`, `ninf` sentinels, with IEEE-754 rules for the
  arithmetic cases the code can reach (`0/0 = nan`, comparisons with `nan`
  are false, `nan` propagates).  Rounding and overflow are not modelled:
  all concrete inputs used below stay exactly representable.
* `numpy.sqrt` is modelled by `Rat.sqrt`; the two agree on perfect-square
  radicands, which is the only regime in which any theorem below evaluates
  a square root.
* intensity sample arrays extracted from the validity mask are `List ℚ`
  (the mask removes the NaN pixels; the claims about non-finite pixels are
  settled on the mask itself, over `List MC.F`).
-/

namespace MC

/-- IEEE-style float value model: finite rational, NaN, +infinity, -infinity. -/
inductive F where
  | fin : ℚ → F
  | nan : F
  | inf : F
  | ninf : F
deriving DecidableEq, Repr

/-- True exactly on the NaN value (`numpy.isnan`). -/
def F.isNaN : F → Bool
  | F.nan => true
  | _ => false

/-- IEEE negation. -/
def F.neg : F → F
  | F.fin a => F.fin (-a)
  | F.nan => F.nan
  | F.inf => F.ninf
  | F.ninf => F.inf

/-- IEEE addition (signed zeros and rounding not modelled). -/
def F.add : F → F → F
  | F.nan, _ => F.nan
  | _, F.nan => F.nan
  | F.fin a, F.fin b => F.fin (a + b)
  | F.inf, F.ninf => F.nan
  | F.ninf, F.inf => F.nan
  | F.inf, _ => F.inf
  | _, F.inf => F.inf
  | F.ninf, _ => F.ninf
  | _, F.ninf => F.ninf

/-- IEEE subtraction, `a - b = a + (-b)`. -/
def F.sub (a b : F) : F := F.add a (F.neg b)

/-- IEEE multiplication; `inf * 0 = nan`. -/
def F.mul : F → F → F
  | F.nan, _ => F.nan
  | _, F.nan => F.nan
  | F.fin a, F.fin b => F.fin (a * b)
  | F.inf, F.fin b => if 0 < b then F.inf else if b < 0 then F.ninf else F.nan
  | F.fin a, F.inf => if 0 < a then F.inf else if a < 0 then F.ninf else F.nan
  | F.ninf, F.fin b => if 0 < b then F.ninf else if b < 0 then F.inf else F.nan
  | F.fin a, F.ninf => if 0 < a then F.ninf else if a < 0 then F.inf else F.nan
  | F.inf, F.inf => F.inf
  | F.inf, F.ninf => F.ninf
  | F.ninf, F.inf => F.ninf
  | F.ninf, F.ninf => F.inf

/-- IEEE division; `0/0 = nan`, `x/0 = ±inf` for `x ≠ 0` (unsigned zero). -/
def F.div : F → F → F
  | F.nan, _ => F.nan
  | _, F.nan => F.nan
  | F.fin a, F.fin b =>
      if b = 0 then (if a = 0 then F.nan else if 0 < a then F.inf else F.ninf)
      else F.fin (a / b)
  | F.fin _, F.inf => F.fin 0
  | F.fin _, F.ninf => F.fin 0
  | F.inf, F.fin b => if 0 ≤ b then F.inf else F.ninf
  | F.ninf, F.fin b => if 0 ≤ b then F.ninf else F.inf
  | F.inf, F.inf => F.nan
  | F.inf, F.ninf => F.nan
  | F.ninf, F.inf => F.nan
  | F.ninf, F.ninf => F.nan

/-- IEEE square root; negative and `-inf` arguments give NaN.  `Rat.sqrt` is
exact on perfect-square radicands (the only regime evaluated below). -/
def F.sqrt : F → F
  | F.fin a => if a < 0 then F.nan else F.fin (Rat.sqrt a)
  | F.nan => F.nan
  | F.inf => F.inf
  | F.ninf => F.nan

/-- IEEE strict less-than: any comparison with NaN is false. -/
def F.flt : F → F → Bool
  | F.nan, _ => false
  | _, F.nan => false
  | F.fin a, F.fin b => decide (a < b)
  | F.fin _, F.inf => true
  | F.fin _, F.ninf => false
  | F.inf, _ => false
  | F.ninf, F.ninf => false
  | F.ninf, _ => true

/-- IEEE less-or-equal: any comparison with NaN is false. -/
def F.fle : F → F → Bool
  | F.nan, _ => false
  | _, F.nan => false
  | F.fin a, F.fin b => decide (a ≤ b)
  | F.fin _, F.inf => true
  | F.fin _, F.ninf => false
  | F.inf, F.inf => true
  | F.inf, _ => false
  | F.ninf, _ => true

/-! ## Basic list helpers for the numpy reductions -/

/-- `numpy.mean` of a 1-D array (empty input is never taken below on ℚ). -/
def meanQ (l : List ℚ) : ℚ := l.sum / l.length

/-- Sum of squared deviations from the mean (the building block of
`numpy.var` and of the Pearson denominator). -/
def ssdQ (l : List ℚ) : ℚ := (l.map (fun x => (x - meanQ l) ^ 2)).sum

/-- Numerator of the Pearson covariance: `Σ (x - mean x)(y - mean y)`. -/
def covnumQ (fi si : List ℚ) : ℚ :=
  (List.zipWith (fun a b => (a - meanQ fi) * (b - meanQ si)) fi si).sum

/-- `numpy.max` of a 1-D rational array (the code only evaluates it on
non-empty arrays; the `[]` case is a junk value). -/
def listMaxQ : List ℚ → ℚ
  | [] => 0
  | a :: t => t.foldl max a

/-- Max of a list of naturals with default 0 (`ndarray.max` on rank arrays,
which are non-empty whenever evaluated below). -/
def natMax (l : List ℕ) : ℕ := l.foldr max 0

/-- Boolean-mask selection `l[mask]` on equal-length 1-D arrays. -/
def selectQ : List ℚ → List Bool → List ℚ
  | a :: t, b :: m => if b then a :: selectQ t m else selectQ t m
  | _, _ => []

/-- Boolean-mask selection on a ℕ-valued array (`labels[mask]`). -/
def selectN : List ℕ → List Bool → List ℕ
  | a :: t, b :: m => if b then a :: selectN t m else selectN t m
  | _, _ => []

/-! ## Dense rank computation (`numpy.lexsort` + adjacent-difference cumsum),
source lines 505–514 (whole image) and 941–954 (per object). -/

/-- Adjacent-inequality flags against a running previous value
(`fi[Rank1[:-1]] != fi[Rank1[1:]]` applied to the sorted value list). -/
def flagsAux (prev : ℚ) : List ℚ → List Bool
  | [] => []
  | b :: t => decide (prev ≠ b) :: flagsAux b t

/-- `numpy.hstack([[False], s[:-1] != s[1:]])` on the sorted value list. -/
def incFlags : List ℚ → List Bool
  | [] => []
  | a :: t => false :: flagsAux a t

/-- `numpy.cumsum` on a boolean array, with a starting accumulator. -/
def cumsumFrom (c : ℕ) : List Bool → List ℕ
  | [] => []
  | b :: t =>
      let c2 := c + (if b then 1 else 0)
      c2 :: cumsumFrom c2 t

/-- Number of distinct values of `L` strictly smaller than `v` (the
specification-side meaning of a dense rank). -/
def Dcount (L : List ℚ) (v : ℚ) : ℕ :=
  (L.toFinset.filter (fun w => w < v)).card

/-- Sort key of the whole-image `numpy.lexsort([fi])`: a stable sort by value
is the unique sort of (value, original index) pairs in lexicographic order. -/
def rankRelW (p q : ℚ × ℕ) : Prop :=
  p.1 < q.1 ∨ (p.1 = q.1 ∧ p.2 ≤ q.2)

instance : DecidableRel rankRelW := fun p q => by
  unfold rankRelW; infer_instance

instance : IsTotal (ℚ × ℕ) rankRelW where
  total p q := by
    rcases lt_trichotomy p.1 q.1 with h | h | h
    · exact Or.inl (Or.inl h)
    · rcases Nat.le_total p.2 q.2 with h2 | h2
      · exact Or.inl (Or.inr ⟨h, h2⟩)
      · exact Or.inr (Or.inr ⟨h.symm, h2⟩)
    · exact Or.inr (Or.inl h)

instance : IsTrans (ℚ × ℕ) rankRelW where
  trans p q r h1 h2 := by
    rcases h1 with h1 | ⟨e1, le1⟩
    · rcases h2 with h2 | ⟨e2, _⟩
      · exact Or.inl (h1.trans h2)
      · exact Or.inl (e2 ▸ h1)
    · rcases h2 with h2 | ⟨e2, le2⟩
      · exact Or.inl (e1 ▸ h2)
      · exact Or.inr ⟨e1.trans e2, le1.trans le2⟩

/-- The (value, original index) pairs of a sample array. -/
def wPairs (l : List ℚ) : List (ℚ × ℕ) :=
  l.enum.map (fun p => (p.2, p.1))

/-- The array in `numpy.lexsort([fi])` order, carried as (value, index)
pairs: the unique lexicographically sorted arrangement. -/
def sortedW (l : List ℚ) : List (ℚ × ℕ) :=
  List.insertionSort rankRelW (wPairs l)

/-- Sorted pairs tagged with their cumulative-distinct rank
(`Rank1_S = numpy.cumsum(Rank1_U)` aligned with `Rank1`). -/
def rankedW (l : List ℚ) : List ((ℚ × ℕ) × ℕ) :=
  (sortedW l).zip (cumsumFrom 0 (incFlags ((sortedW l).map Prod.fst)))

/-- The scatter `Rank_im1[Rank1] = Rank1_S` read back at original index `i`. -/
def denseRankAt (l : List ℚ) (i : ℕ) : ℕ :=
  (((rankedW l).find? (fun pr => pr.1.2 == i)).map (fun pr => pr.2)).getD 0

/-- The whole dense-rank array `Rank_im1`. -/
def denseRanks (l : List ℚ) : List ℕ :=
  (List.range l.length).map (denseRankAt l)

/-! ## Combined validity mask, source lines 430–435:
`mask = first_mask & second_mask & (~isnan(first)) & (~isnan(second))`. -/

/-- Elementwise combined validity mask of an aligned image pair. -/
def combinedMask : List F → List F → List Bool → List Bool → List Bool
  | a :: as2, b :: bs, m :: ms, m2 :: ms2 =>
      (m && m2 && !a.isNaN && !b.isNaN) :: combinedMask as2 bs ms ms2
  | _, _, _, _ => []

/-! ## Whole-image metrics (`run_image_pair_images`), source lines 437–546. -/

/-- Pearson correlation `numpy.corrcoef((fi, si))[1, 0]`, written with the
cancelled `n-1` factors: `Σ(x-mx)(y-my) / sqrt(ssd x * ssd y)`. -/
def corrW (fi si : List ℚ) : F :=
  F.div (F.fin (covnumQ fi si)) (F.sqrt (F.fin (ssdQ fi * ssdQ si)))

/-- Least-squares slope of `A*fi + B = si` (source lines 452–455).
Modelled from the spec: `scipy.linalg.lstsq` is external; on a non-constant
`fi` the least-squares solution is unique and given by the normal equations
`a = (n Σxy - Σx Σy) / (n Σx² - (Σx)²)`; the singular case (constant `fi`,
where scipy returns the minimum-norm solution) is not evaluated by any
theorem below. -/
def slopeW (fi si : List ℚ) : F :=
  F.div
    (F.fin ((fi.length : ℚ) * (List.zipWith (· * ·) fi si).sum - fi.sum * si.sum))
    (F.fin ((fi.length : ℚ) * (fi.map (fun x => x ^ 2)).sum - fi.sum ^ 2))

/-- Threshold as percentage of maximum intensity:
`thr_fi = self.thr.value * numpy.max(fi) / 100` (source line 469). -/
def thrVal (p : ℚ) (l : List ℚ) : ℚ := p * listMaxQ l / 100

/-- `combined_thresh = (fi > thr_fi) & (si > thr_si)` — strict comparison
(source line 471). -/
def combinedThreshW (p : ℚ) (fi si : List ℚ) : List Bool :=
  List.zipWith (fun a b => decide (thrVal p fi < a) && decide (thrVal p si < b)) fi si

/-- `tot_fi_thr = fi[(fi > thr_fi)].sum()` (source line 474). -/
def totFiThrW (p : ℚ) (fi : List ℚ) : ℚ :=
  (fi.filter (fun a => decide (thrVal p fi < a))).sum

/-- Manders `M1 = fi_thresh.sum() / tot_fi_thr` (source line 481). -/
def M1W (p : ℚ) (fi si : List ℚ) : F :=
  F.div (F.fin (selectQ fi (combinedThreshW p fi si)).sum)
    (F.fin (totFiThrW p fi))

/-- Manders `M2 = si_thresh.sum() / tot_si_thr` (source line 482). -/
def M2W (p : ℚ) (fi si : List ℚ) : F :=
  F.div (F.fin (selectQ si (combinedThreshW p fi si)).sum)
    (F.fin (totFiThrW p si))

/-- `R = max(Rank_im1.max(), Rank_im2.max()) + 1` and
`weight = (R - abs(Rank_im1 - Rank_im2)) * 1.0 / R` (source lines 516–518). -/
def weightsW (fi si : List ℚ) : List ℚ :=
  let r1 := denseRanks fi
  let r2 := denseRanks si
  let R : ℚ := ((max (natMax r1) (natMax r2) + 1 : ℕ) : ℚ)
  List.zipWith (fun (a b : ℕ) => (R - ((((a : ℤ) - (b : ℤ)).natAbs : ℕ) : ℚ)) / R) r1 r2

/-- `RWC1 = (fi_thresh * weight_thresh).sum() / tot_fi_thr` (source line 520). -/
def RWC1W (p : ℚ) (fi si : List ℚ) : F :=
  F.div
    (F.fin (selectQ (List.zipWith (· * ·) fi (weightsW fi si)) (combinedThreshW p fi si)).sum)
    (F.fin (totFiThrW p fi))

/-- `RWC2 = (si_thresh * weight_thresh).sum() / tot_si_thr` (source line 521). -/
def RWC2W (p : ℚ) (fi si : List ℚ) : F :=
  F.div
    (F.fin (selectQ (List.zipWith (· * ·) si (weightsW fi si)) (combinedThreshW p fi si)).sum)
    (F.fin (totFiThrW p si))

/-- Overlap `= (fi_thresh*si_thresh).sum() / sqrt((fi_thresh**2).sum() *
(si_thresh**2).sum())` (source lines 542–544). -/
def overlapW (p : ℚ) (fi si : List ℚ) : F :=
  let ft := selectQ fi (combinedThreshW p fi si)
  let st := selectQ si (combinedThreshW p fi si)
  F.div (F.fin (List.zipWith (· * ·) ft st).sum)
    (F.sqrt (F.fin ((ft.map (fun x => x ^ 2)).sum * (st.map (fun x => x ^ 2)).sum)))

/-- `K1 = (fi_thresh*si_thresh).sum() / (fi_thresh**2).sum()` (source 545). -/
def K1W (p : ℚ) (fi si : List ℚ) : F :=
  let ft := selectQ fi (combinedThreshW p fi si)
  let st := selectQ si (combinedThreshW p fi si)
  F.div (F.fin (List.zipWith (· * ·) ft st).sum) (F.fin ((ft.map (fun x => x ^ 2)).sum))

/-- `K2 = (fi_thresh*si_thresh).sum() / (si_thresh**2).sum()` (source 546). -/
def K2W (p : ℚ) (fi si : List ℚ) : F :=
  let ft := selectQ fi (combinedThreshW p fi si)
  let st := selectQ si (combinedThreshW p fi si)
  F.div (F.fin (List.zipWith (· * ·) ft st).sum) (F.fin ((st.map (fun x => x ^ 2)).sum))

/-! ## Costes automated threshold (source lines 557–597 and 1111–1142). -/

/-- `nonZero = (fi > 0) | (si > 0)` applied to the aligned sample pairs. -/
def nonZeroPairs (fi si : List ℚ) : List (ℚ × ℚ) :=
  (fi.zip si).filter (fun p => decide (0 < p.1) || decide (0 < p.2))

/-- `numpy.var(·, ddof=1)`: NaN on fewer than two samples (0/0), else the
sample variance. -/
def varF (l : List ℚ) : F :=
  if l.length < 2 then F.nan else F.fin (ssdQ l / ((l.length : ℚ) - 1))

/-- `numpy.mean`: NaN on an empty array. -/
def meanF (l : List ℚ) : F :=
  if l.length = 0 then F.nan else F.fin (meanQ l)

/-- `covar = 0.5 * (zvar - (xvar + yvar))` (source line 570). -/
def costesCovar (fi si : List ℚ) : F :=
  let nz := nonZeroPairs fi si
  let xvar := varF (nz.map Prod.fst)
  let yvar := varF (nz.map Prod.snd)
  let zvar := varF (nz.map (fun p => p.1 + p.2))
  F.mul (F.fin (1/2)) (F.sub zvar (F.add xvar yvar))

/-- Orthogonal-regression slope
`a = ((yvar-xvar) + sqrt((yvar-xvar)² + 4 covar²)) / (2 covar)`
(source lines 572–576). -/
def costesA (fi si : List ℚ) : F :=
  let nz := nonZeroPairs fi si
  let xvar := varF (nz.map Prod.fst)
  let yvar := varF (nz.map Prod.snd)
  let covar := costesCovar fi si
  let d := F.sub yvar xvar
  F.div (F.add d (F.sqrt (F.add (F.mul d d) (F.mul (F.fin 4) (F.mul covar covar)))))
    (F.mul (F.fin 2) covar)

/-- Intercept `b = ymean - a * xmean` (source line 577). -/
def costesB (fi si : List ℚ) : F :=
  let nz := nonZeroPairs fi si
  F.sub (meanF (nz.map Prod.snd)) (F.mul (costesA fi si) (meanF (nz.map Prod.fst)))

/-- The loop decrement `0.003921568627` (the literal from source lines 580
and 588, modelled exactly as a rational; the accumulated float error over at
most 255 subtractions is ~1e-13, far below the 1.15e-10 margin at which the
guard flips, so the exact-rational iteration count matches the float one). -/
def dStep : ℚ := 3921568627 / 1000000000000

/-- Decision made of `scipy.stats.pearsonr(fi[combt], si[combt])` inside the
Costes loop.  Modelled from the spec: `scipy.stats.pearsonr` is external and
only the sign of `r` and its computability are consumed; `r` has the sign of
the covariance numerator (the denominator is a positive product of standard
deviations), and per spec §4.5 a degenerate below-threshold set (fewer than
two samples, or zero variance in either channel) is a case where the
correlation cannot be computed and the search terminates.  `none` models
that degenerate case (the caught `ValueError`); `some true` models
`r ≤ 0`. -/
def pearsonNonPos (ps : List (ℚ × ℚ)) : Option Bool :=
  let xs := ps.map Prod.fst
  let ys := ps.map Prod.snd
  if ps.length < 2 ∨ ssdQ xs = 0 ∨ ssdQ ys = 0 then none
  else some (decide (covnumQ xs ys ≤ 0))

/-- The break test of one Costes loop iteration: `except ValueError: break`
together with `if costReg[0] <= 0: break` (source lines 584–590). -/
def costesBreak (fi si : List ℚ) (tfi : ℚ) (tsi : F) : Bool :=
  let combt := (fi.zip si).filter
    (fun p => decide (p.1 < tfi) || F.flt (F.fin p.2) tsi)
  match pearsonNonPos combt with
  | none => true
  | some b => b

/-- One fuel-indexed unfolding of the search loop
`while i > 0.003921568627` (source lines 579–590).  With fuel `f` the loop
body runs at most `f + 1` times; `costesLoopBound` below shows fuel 254 is
never exhausted, so `costesLoopAux 254` is the loop itself.  The result is
(accepted `(Thr_fi_c, Thr_si_c)`, number of executed iterations). -/
def costesLoopAux (fi si : List ℚ) (a b : F) : ℕ → ℚ → (ℚ × F) × ℕ
  | 0, i => ((i, F.add (F.mul a (F.fin i)) b), 1)
  | fuel + 1, i =>
      let tsi := F.add (F.mul a (F.fin i)) b
      if costesBreak fi si i tsi then ((i, tsi), 1)
      else if dStep < i - dStep then
        let r := costesLoopAux fi si a b fuel (i - dStep)
        (r.1, r.2 + 1)
      else ((i, tsi), 1)

/-- The full Costes threshold search: slope, intercept, then the loop from
`i = 1`. -/
def costesSearch (fi si : List ℚ) : (ℚ × F) × ℕ :=
  costesLoopAux fi si (costesA fi si) (costesB fi si) 254 1

/-- Whole-image Costes Manders `C1` (source lines 593–602):
`combined_thresh_c = (fi > Thr_fi_c) & (si > Thr_si_c)`,
`C1 = fi_thresh_c.sum() / fi[(fi > Thr_fi_c)].sum()`. -/
def C1W (fi si : List ℚ) : F :=
  let t := (costesSearch fi si).1
  let comb := List.zipWith (fun a b => decide (t.1 < a) && F.flt t.2 (F.fin b)) fi si
  F.div (F.fin (selectQ fi comb).sum)
    (F.fin ((fi.filter (fun a => decide (t.1 < a))).sum))

/-- Whole-image Costes Manders `C2` (source lines 595–603). -/
def C2W (fi si : List ℚ) : F :=
  let t := (costesSearch fi si).1
  let comb := List.zipWith (fun a b => decide (t.1 < a) && F.flt t.2 (F.fin b)) fi si
  F.div (F.fin (selectQ si comb).sum)
    (F.fin ((si.filter (fun b => F.flt t.2 (F.fin b))).sum))

/-! ## Per-object metrics (`run_image_pair_objects`), source lines 686–1328. -/

/-- The samples of label `j` (`vals[labels == j]`), order preserved. -/
def groupVals (vals : List ℚ) (labs : List ℕ) (j : ℕ) : List ℚ :=
  ((vals.zip labs).filter (fun pr => pr.2 == j)).map Prod.fst

/-- `scipy.ndimage.sum(vals, labels, lrange)` with `lrange = 1..n`. -/
def ndsum (vals : List ℚ) (labs : List ℕ) (n : ℕ) : List ℚ :=
  (List.range n).map (fun j => (groupVals vals labs (j + 1)).sum)

/-- `scipy.ndimage.maximum(vals, labels, lrange)`; labels with no member
pixels are never evaluated by the theorems below. -/
def ndmaxQ (vals : List ℚ) (labs : List ℕ) (n : ℕ) : List ℚ :=
  (List.range n).map (fun j => listMaxQ (groupVals vals labs (j + 1)))

/-- Per-object thresholds
`tff = (self.thr.value / 100) * ndimage.maximum(first_pixels, labels, lrange)`
(source lines 841–846). -/
def tffList (p : ℚ) (vals : List ℚ) (labs : List ℕ) (n : ℕ) : List ℚ :=
  (ndmaxQ vals labs n).map (fun m => p / 100 * m)

/-- `combined_thresh = (first_pixels >= tff[labels-1]) &
(second_pixels >= tss[labels-1])` — non-strict comparison
(source lines 848–850). -/
def combinedThreshO (tff tss : List ℚ) : List ℚ → List ℚ → List ℕ → List Bool
  | a :: as2, b :: bs, lab :: labs =>
      (decide (tff.getD (lab - 1) 0 ≤ a) && decide (tss.getD (lab - 1) 0 ≤ b))
        :: combinedThreshO tff tss as2 bs labs
  | _, _, _ => []

/-- The per-pixel mask `first_pixels >= tff[labels-1]` alone
(source lines 853–856). -/
def aboveOwnThr (tff : List ℚ) : List ℚ → List ℕ → List Bool
  | a :: as2, lab :: labs =>
      decide (tff.getD (lab - 1) 0 ≤ a) :: aboveOwnThr tff as2 labs
  | _, _ => []

/-- `tot_fi_thr = ndimage.sum(first_pixels[cond], labels[cond], lrange)`
(source lines 853–862). -/
def totThrO (tff : List ℚ) (vals : List ℚ) (labs : List ℕ) (n : ℕ) : List ℚ :=
  ndsum (selectQ vals (aboveOwnThr tff vals labs))
    (selectN labs (aboveOwnThr tff vals labs)) n

/-- Per-object correlation vector (source lines 774–807): per-label value
`Σ(x-mean1)(y-mean2)/(std1*std2)` with the grouped sums written per label;
labels with zero contributing pixels are NaN (line 807). -/
def corrVecO (fp sp : List ℚ) (labs : List ℕ) (n : ℕ) : List F :=
  (List.range n).map (fun j =>
    let g1 := groupVals fp labs (j + 1)
    let g2 := groupVals sp labs (j + 1)
    if g1.length = 0 then F.nan
    else F.div (F.fin (covnumQ g1 g2))
      (F.mul (F.sqrt (F.fin (ssdQ g1))) (F.sqrt (F.fin (ssdQ g2)))))

/-- Per-object Manders vector `M1` (source lines 864–875): zero when the
joint mask is empty, else the per-label grouped quotient. -/
def M1vecO (p : ℚ) (fp sp : List ℚ) (labs : List ℕ) (n : ℕ) : List F :=
  let tff := tffList p fp labs n
  let tss := tffList p sp labs n
  let comb := combinedThreshO tff tss fp sp labs
  if comb.any id then
    List.zipWith F.div
      ((ndsum (selectQ fp comb) (selectN labs comb) n).map F.fin)
      ((totThrO tff fp labs n).map F.fin)
  else List.replicate n (F.fin 0)

/-- Per-object Manders vector `M2` (source lines 864–875). -/
def M2vecO (p : ℚ) (fp sp : List ℚ) (labs : List ℕ) (n : ℕ) : List F :=
  let tff := tffList p fp labs n
  let tss := tffList p sp labs n
  let comb := combinedThreshO tff tss fp sp labs
  if comb.any id then
    List.zipWith F.div
      ((ndsum (selectQ sp comb) (selectN labs comb) n).map F.fin)
      ((totThrO tss sp labs n).map F.fin)
  else List.replicate n (F.fin 0)

/-- Sort key of the per-object `numpy.lexsort(([labels], [first_pixels]))`:
value is the primary key, label the secondary, original index the implicit
stable tiebreak; entries are (value, label, index). -/
def rankRelO (p q : ℚ × ℕ × ℕ) : Prop :=
  p.1 < q.1 ∨ (p.1 = q.1 ∧ (p.2.1 < q.2.1 ∨ (p.2.1 = q.2.1 ∧ p.2.2 ≤ q.2.2)))

instance : DecidableRel rankRelO := fun p q => by
  unfold rankRelO; infer_instance

instance : IsTotal (ℚ × ℕ × ℕ) rankRelO where
  total p q := by
    rcases lt_trichotomy p.1 q.1 with h | h | h
    · exact Or.inl (Or.inl h)
    · rcases Nat.lt_trichotomy p.2.1 q.2.1 with h2 | h2 | h2
      · exact Or.inl (Or.inr ⟨h, Or.inl h2⟩)
      · rcases Nat.le_total p.2.2 q.2.2 with h3 | h3
        · exact Or.inl (Or.inr ⟨h, Or.inr ⟨h2, h3⟩⟩)
        · exact Or.inr (Or.inr ⟨h.symm, Or.inr ⟨h2.symm, h3⟩⟩)
      · exact Or.inr (Or.inr ⟨h.symm, Or.inl h2⟩)
    · exact Or.inr (Or.inl h)

instance : IsTrans (ℚ × ℕ × ℕ) rankRelO where
  trans p q r h1 h2 := by
    rcases h1 with h1 | ⟨e1, h1⟩
    · rcases h2 with h2 | ⟨e2, _⟩
      · exact Or.inl (h1.trans h2)
      · exact Or.inl (e2 ▸ h1)
    · rcases h2 with h2 | ⟨e2, h2⟩
      · exact Or.inl (e1 ▸ h2)
      · refine Or.inr ⟨e1.trans e2, ?_⟩
        rcases h1 with h1 | ⟨e3, h1⟩
        · rcases h2 with h2 | ⟨e4, _⟩
          · exact Or.inl (h1.trans h2)
          · exact Or.inl (e4 ▸ h1)
        · rcases h2 with h2 | ⟨e4, h2⟩
          · exact Or.inl (e3 ▸ h2)
          · exact Or.inr ⟨e3.trans e4, h1.trans h2⟩

/-- (value, label, original index) triples of the per-object samples. -/
def oPairs (vals : List ℚ) (labs : List ℕ) : List (ℚ × ℕ × ℕ) :=
  (vals.zip labs).enum.map (fun pr => (pr.2.1, pr.2.2, pr.1))

/-- The per-object samples in `lexsort(([labels], [vals]))` order. -/
def sortedO (vals : List ℚ) (labs : List ℕ) : List (ℚ × ℕ × ℕ) :=
  List.insertionSort rankRelO (oPairs vals labs)

/-- Sorted triples tagged with their cumulative-distinct rank (per-object
`Rank1_S` aligned with `Rank1`, source lines 941–950). -/
def rankedO (vals : List ℚ) (labs : List ℕ) : List ((ℚ × ℕ × ℕ) × ℕ) :=
  (sortedO vals labs).zip
    (cumsumFrom 0 (incFlags ((sortedO vals labs).map Prod.fst)))

/-- The per-object scatter `Rank_im1[Rank1] = Rank1_S` read at index `i`. -/
def denseRankAtO (vals : List ℚ) (labs : List ℕ) (i : ℕ) : ℕ :=
  (((rankedO vals labs).find? (fun pr => pr.1.2.2 == i)).map (fun pr => pr.2)).getD 0

/-- The per-object dense-rank array `Rank_im1` (source lines 951–954). -/
def denseRanksO (vals : List ℚ) (labs : List ℕ) : List ℕ :=
  (List.range vals.length).map (denseRankAtO vals labs)

/-- Per-object RWC weights over the pooled samples of all objects
(source lines 956–958): `R = max(Rank_im1.max(), Rank_im2.max()) + 1`,
`weight = (R - abs(Rank_im1 - Rank_im2)) * 1.0 / R`. -/
def weightsO (fp sp : List ℚ) (labs : List ℕ) : List ℚ :=
  let r1 := denseRanksO fp labs
  let r2 := denseRanksO sp labs
  let R : ℚ := ((max (natMax r1) (natMax r2) + 1 : ℕ) : ℚ)
  List.zipWith (fun (a b : ℕ) => (R - ((((a : ℤ) - (b : ℤ)).natAbs : ℕ) : ℚ)) / R) r1 r2

/-- Per-object RWC vector `RWC1` (source lines 937–966). -/
def RWC1vecO (p : ℚ) (fp sp : List ℚ) (labs : List ℕ) (n : ℕ) : List F :=
  let tff := tffList p fp labs n
  let tss := tffList p sp labs n
  let comb := combinedThreshO tff tss fp sp labs
  if comb.any id then
    List.zipWith F.div
      ((ndsum (List.zipWith (· * ·) (selectQ fp comb) (selectQ (weightsO fp sp labs) comb))
          (selectN labs comb) n).map F.fin)
      ((totThrO tff fp labs n).map F.fin)
  else List.replicate n (F.fin 0)

/-- Per-object RWC vector `RWC2` (source lines 937–971). -/
def RWC2vecO (p : ℚ) (fp sp : List ℚ) (labs : List ℕ) (n : ℕ) : List F :=
  let tff := tffList p fp labs n
  let tss := tffList p sp labs n
  let comb := combinedThreshO tff tss fp sp labs
  if comb.any id then
    List.zipWith F.div
      ((ndsum (List.zipWith (· * ·) (selectQ sp comb) (selectQ (weightsO fp sp labs) comb))
          (selectN labs comb) n).map F.fin)
      ((totThrO tss sp labs n).map F.fin)
  else List.replicate n (F.fin 0)

/-- Per-object Overlap vector (source lines 1034–1079): zero vectors when
the joint mask is empty, else the grouped quotient with the
`sqrt(fpsq * spsq)` denominator. -/
def overlapVecO (p : ℚ) (fp sp : List ℚ) (labs : List ℕ) (n : ℕ) : List F :=
  let tff := tffList p fp labs n
  let tss := tffList p sp labs n
  let comb := combinedThreshO tff tss fp sp labs
  if comb.any id then
    let fpsq := ndsum ((selectQ fp comb).map (fun x => x ^ 2)) (selectN labs comb) n
    let spsq := ndsum ((selectQ sp comb).map (fun x => x ^ 2)) (selectN labs comb) n
    let num := ndsum (List.zipWith (· * ·) (selectQ fp comb) (selectQ sp comb))
      (selectN labs comb) n
    List.zipWith (fun a d => F.div (F.fin a) (F.sqrt (F.fin d))) num
      (List.zipWith (· * ·) fpsq spsq)
  else List.replicate n (F.fin 0)

/-- Per-object `K1` vector (source lines 1058–1068, 1079). -/
def K1vecO (p : ℚ) (fp sp : List ℚ) (labs : List ℕ) (n : ℕ) : List F :=
  let tff := tffList p fp labs n
  let tss := tffList p sp labs n
  let comb := combinedThreshO tff tss fp sp labs
  if comb.any id then
    let fpsq := ndsum ((selectQ fp comb).map (fun x => x ^ 2)) (selectN labs comb) n
    let num := ndsum (List.zipWith (· * ·) (selectQ fp comb) (selectQ sp comb))
      (selectN labs comb) n
    List.zipWith (fun a d => F.div (F.fin a) (F.fin d)) num fpsq
  else List.replicate n (F.fin 0)

/-- Per-object `K2` vector (source lines 1069–1079). -/
def K2vecO (p : ℚ) (fp sp : List ℚ) (labs : List ℕ) (n : ℕ) : List F :=
  let tff := tffList p fp labs n
  let tss := tffList p sp labs n
  let comb := combinedThreshO tff tss fp sp labs
  if comb.any id then
    let spsq := ndsum ((selectQ sp comb).map (fun x => x ^ 2)) (selectN labs comb) n
    let num := ndsum (List.zipWith (· * ·) (selectQ fp comb) (selectQ sp comb))
      (selectN labs comb) n
    List.zipWith (fun a d => F.div (F.fin a) (F.fin d)) num spsq
  else List.replicate n (F.fin 0)

/-- Result of the per-object Costes block (source lines 1111–1180): the
threshold pair accepted by the whole-image search and the two per-object
coefficient vectors. -/
structure CostesObjOut where
  thr : ℚ × F
  C1 : List F
  C2 : List F
deriving Repr

/-- Application of an arbitrary threshold pair to the per-object arrays:
the body of the Costes block after the search (source lines 1144–1180),
abstracted over the threshold pair it receives.  Used to state that the
per-object coefficients are a function of the whole-image-derived pair. -/
def objCostesWith (t : ℚ × F) (fp sp : List ℚ) (labs : List ℕ) (n : ℕ) :
    List F × List F :=
  let fiAbove := fp.map (fun a => decide (t.1 < a))
  let siAbove := sp.map (fun b => F.flt t.2 (F.fin b))
  let combC := List.zipWith (· && ·) fiAbove siAbove
  let fiGe := fp.map (fun a => decide (t.1 ≤ a))
  let siGe := sp.map (fun b => F.fle t.2 (F.fin b))
  let totFi := if fiAbove.any id then ndsum (selectQ fp fiGe) (selectN labs fiGe) n
    else List.replicate n 0
  let totSi := if siAbove.any id then ndsum (selectQ sp siGe) (selectN labs siGe) n
    else List.replicate n 0
  let c1 := if combC.any id then
      List.zipWith F.div ((ndsum (selectQ fp combC) (selectN labs combC) n).map F.fin)
        (totFi.map F.fin)
    else List.replicate n (F.fin 0)
  let c2 := if combC.any id then
      List.zipWith F.div ((ndsum (selectQ sp combC) (selectN labs combC) n).map F.fin)
        (totSi.map F.fin)
    else List.replicate n (F.fin 0)
  (c1, c2)

/-- Per-object Costes block (source lines 1111–1180).  The search runs on
the whole-image aligned samples `fi, si` (line 1112 uses `fi`, `si`, not the
per-object arrays); the accepted `(thr_fi_c, thr_si_c)` is then applied to
the per-object arrays `first_pixels, second_pixels` for every object. -/
def objCostes (fi si fp sp : List ℚ) (labs : List ℕ) (n : ℕ) : CostesObjOut :=
  let t := (costesSearch fi si).1
  let fiAbove := fp.map (fun a => decide (t.1 < a))
  let siAbove := sp.map (fun b => F.flt t.2 (F.fin b))
  let combC := List.zipWith (· && ·) fiAbove siAbove
  let fiGe := fp.map (fun a => decide (t.1 ≤ a))
  let siGe := sp.map (fun b => F.fle t.2 (F.fin b))
  let totFi := if fiAbove.any id then ndsum (selectQ fp fiGe) (selectN labs fiGe) n
    else List.replicate n 0
  let totSi := if siAbove.any id then ndsum (selectQ sp siGe) (selectN labs siGe) n
    else List.replicate n 0
  let c1 := if combC.any id then
      List.zipWith F.div ((ndsum (selectQ fp combC) (selectN labs combC) n).map F.fin)
        (totFi.map F.fin)
    else List.replicate n (F.fin 0)
  let c2 := if combC.any id then
      List.zipWith F.div ((ndsum (selectQ sp combC) (selectN labs combC) n).map F.fin)
        (totSi.map F.fin)
    else List.replicate n (F.fin 0)
  ⟨t, c1, c2⟩

/-- The ten per-object metric vectors of `run_image_pair_objects`. -/
structure ObjResult where
  corr : List F
  overlap : List F
  K1 : List F
  K2 : List F
  M1 : List F
  M2 : List F
  RWC1 : List F
  RWC2 : List F
  C1 : List F
  C2 : List F
deriving Repr

/-- The fully-computed branch of `run_image_pair_objects` (the `else` at
source line 771), on the per-object samples and on the whole-image aligned
samples `fi = first[mask]`, `si = second[mask]`. -/
def objFull (p : ℚ) (wfp wsp : List ℚ) (mask : List Bool) (fp sp : List ℚ)
    (labs : List ℕ) (n : ℕ) : ObjResult :=
  let fi := selectQ wfp mask
  let si := selectQ wsp mask
  let co := objCostes fi si fp sp labs n
  ⟨corrVecO fp sp labs n, overlapVecO p fp sp labs n,
    K1vecO p fp sp labs n, K2vecO p fp sp labs n,
    M1vecO p fp sp labs n, M2vecO p fp sp labs n,
    RWC1vecO p fp sp labs n, RWC2vecO p fp sp labs n, co.C1, co.C2⟩

/-- The branch structure of `run_image_pair_objects` (source lines 756–770):
`n_objects == 0` gives zero-length vectors; a whole-image validity mask with
no true entry gives N-length NaN vectors; otherwise the metrics are
computed. -/
def runObjects (p : ℚ) (wfp wsp : List ℚ) (mask : List Bool) (fp sp : List ℚ)
    (labs : List ℕ) (n : ℕ) : ObjResult :=
  if n = 0 then ⟨[], [], [], [], [], [], [], [], [], []⟩
  else if mask.any id = false then
    let v := List.replicate n F.nan
    ⟨v, v, v, v, v, v, v, v, v, v⟩
  else objFull p wfp wsp mask fp sp labs n

/-- A displayed statistics value: the `"-"` placeholder or a number. -/
inductive RVal where
  | dash : RVal
  | num : F → RVal
deriving DecidableEq, Repr

/-- The rows returned by `run_image_pair_objects` (source lines 1296–1328):
for `n_objects == 0` the four hardcoded `"-"` correlation summary rows,
otherwise the accumulated result rows. -/
def objReturnRows (n : ℕ) (computed : List RVal) : List RVal :=
  if n = 0 then [RVal.dash, RVal.dash, RVal.dash, RVal.dash] else computed

/-! ## Rank characterization: the lexsort/cumsum/scatter pipeline computes
dense ranks, i.e. the number of distinct strictly-smaller values. -/

theorem Dcount_eq_zero_of_min {L : List ℚ} {v : ℚ} (h : ∀ x ∈ L, v ≤ x) :
    Dcount L v = 0 := by
  unfold Dcount
  rw [Finset.card_eq_zero, Finset.filter_eq_empty_iff]
  intro w hw
  simp only [List.mem_toFinset] at hw
  exact not_lt.mpr (h w hw)

theorem Dcount_cons_head {b : ℚ} {t : List ℚ} (prev : ℚ)
    (hle : prev ≤ b) (ht : ∀ x ∈ t, b ≤ x) :
    Dcount (prev :: b :: t) b = if prev ≠ b then 1 else 0 := by
  unfold Dcount
  by_cases hpb : prev = b
  · subst hpb
    simp only [ne_eq, not_true_eq_false, if_false]
    rw [Finset.card_eq_zero, Finset.filter_eq_empty_iff]
    intro w hw
    simp only [List.mem_toFinset, List.mem_cons] at hw
    rcases hw with rfl | rfl | hw
    · exact lt_irrefl _
    · exact lt_irrefl _
    · exact not_lt.mpr (ht w hw)
  · have hplt : prev < b := lt_of_le_of_ne hle hpb
    simp only [ne_eq, hpb, not_false_iff, if_true]
    have : (prev :: b :: t).toFinset.filter (fun w => w < b) = {prev} := by
      ext w
      simp only [Finset.mem_filter, List.mem_toFinset, List.mem_cons,
        Finset.mem_singleton]
      constructor
      · rintro ⟨rfl | rfl | hw, hlt⟩
        · rfl
        · exact absurd hlt (lt_irrefl _)
        · exact absurd hlt (not_lt.mpr (ht w hw))
      · rintro rfl
        exact ⟨Or.inl rfl, hplt⟩
    rw [this, Finset.card_singleton]

theorem Dcount_cons_shift {prev b : ℚ} {t : List ℚ} {v : ℚ}
    (hle : prev ≤ b) (hbv : b ≤ v) (ht : ∀ x ∈ t, b ≤ x) :
    Dcount (prev :: b :: t) v = (if prev ≠ b then 1 else 0) + Dcount (b :: t) v := by
  unfold Dcount
  by_cases hpb : prev = b
  · subst hpb
    simp only [ne_eq, not_true_eq_false, if_false, zero_add]
    congr 1
    congr 1
    apply List.toFinset.ext
    intro x
    simp only [List.mem_cons]
    tauto
  · have hplt : prev < b := lt_of_le_of_ne hle hpb
    simp only [ne_eq, hpb, not_false_iff, if_true]
    have hsplit : (prev :: b :: t).toFinset.filter (fun w => w < v)
        = insert prev ((b :: t).toFinset.filter (fun w => w < v)) := by
      ext w
      simp only [Finset.mem_filter, Finset.mem_insert, List.mem_toFinset,
        List.mem_cons]
      constructor
      · rintro ⟨rfl | hw, hlt⟩
        · exact Or.inl rfl
        · exact Or.inr ⟨by simpa using hw, hlt⟩
      · rintro (rfl | ⟨hw, hlt⟩)
        · exact ⟨Or.inl rfl, lt_of_lt_of_le hplt hbv⟩
        · exact ⟨Or.inr (by simpa using hw), hlt⟩
    rw [hsplit, Finset.card_insert_of_not_mem, add_comm]
    intro hmem
    simp only [Finset.mem_filter, List.mem_toFinset, List.mem_cons] at hmem
    rcases hmem.1 with rfl | hw
    · exact absurd hplt (lt_irrefl _)
    · exact absurd (ht _ hw) (not_le.mpr hplt)

theorem cums_flagsAux (t : List ℚ) (prev : ℚ) (c : ℕ)
    (h : List.Sorted (· ≤ ·) (prev :: t)) :
    cumsumFrom c (flagsAux prev t)
      = t.map (fun v => c + Dcount (prev :: t) v) := by
  induction t generalizing prev c with
  | nil => rfl
  | cons b t ih =>
      rw [List.sorted_cons] at h
      obtain ⟨hpb, hsort⟩ := h
      have hpb2 : prev ≤ b := hpb b (List.mem_cons_self _ _)
      have hbt : ∀ x ∈ t, b ≤ x := by
        rw [List.sorted_cons] at hsort
        exact hsort.1
      show (c + if decide (prev ≠ b) = true then 1 else 0)
          :: cumsumFrom (c + if decide (prev ≠ b) = true then 1 else 0) (flagsAux b t)
        = (c + Dcount (prev :: b :: t) b)
          :: t.map (fun v => c + Dcount (prev :: b :: t) v)
      have hflag : (if decide (prev ≠ b) = true then 1 else 0)
          = (if prev ≠ b then 1 else 0) := by
        by_cases hx : prev = b <;> simp [hx]
      congr 1
      · rw [hflag, Dcount_cons_head prev hpb2 hbt]
      · rw [ih b _ hsort]
        apply List.map_congr_left
        intro v hv
        have hbv : b ≤ v := hbt v hv
        rw [Dcount_cons_shift hpb2 hbv hbt, hflag]
        omega

theorem cums_eq (vals : List ℚ) (h : List.Sorted (· ≤ ·) vals) :
    cumsumFrom 0 (incFlags vals) = vals.map (fun v => Dcount vals v) := by
  cases vals with
  | nil => rfl
  | cons a t =>
      show (0 + if False then 1 else 0) :: cumsumFrom (0 + if False then 1 else 0) (flagsAux a t)
        = (Dcount (a :: t) a) :: t.map (fun v => Dcount (a :: t) v)
      simp only [if_false, Nat.add_zero]
      congr 1
      · rw [Dcount_eq_zero_of_min]
        intro x hx
        rcases List.mem_cons.mp hx with rfl | hx
        · exact le_refl _
        · rw [List.sorted_cons] at h
          exact h.1 x hx
      · rw [cums_flagsAux t a 0 h]
        simp

theorem rank_lookup_eq {β : Type} (s : List (ℚ × β)) (base : List ℚ)
    (q : ℚ × β → Bool) (v : ℚ)
    (hperm : (s.map Prod.fst).Perm base)
    (hsort : List.Sorted (· ≤ ·) (s.map Prod.fst))
    (hex : ∃ pr ∈ s, q pr = true)
    (hval : ∀ pr ∈ s, q pr = true → pr.1 = v) :
    (((s.zip (cumsumFrom 0 (incFlags (s.map Prod.fst)))).find?
        (fun pr => q pr.1)).map (fun pr => pr.2)).getD 0 = Dcount base v := by
  have hD : ∀ w, Dcount (s.map Prod.fst) w = Dcount base w := by
    intro w
    unfold Dcount
    rw [List.toFinset_eq_of_perm _ _ hperm]
  rw [cums_eq _ hsort]
  have hz : s.zip ((s.map Prod.fst).map (fun w => Dcount (s.map Prod.fst) w))
      = s.map (fun a => (a, Dcount (s.map Prod.fst) a.1)) := by
    rw [List.map_map]
    have := List.zip_map' (fun a : ℚ × β => a)
      (fun a : ℚ × β => Dcount (s.map Prod.fst) a.1) s
    simpa using this
  rw [hz, List.find?_map]
  have hsome : (s.find? ((fun pr : (ℚ × β) × ℕ => q pr.1) ∘
      (fun a => (a, Dcount (s.map Prod.fst) a.1)))).isSome = true := by
    rw [List.find?_isSome]
    obtain ⟨pr, hmem, hq⟩ := hex
    exact ⟨pr, hmem, hq⟩
  obtain ⟨a, ha⟩ := Option.isSome_iff_exists.mp hsome
  have hqa : q a = true := List.find?_some ha
  have hamem : a ∈ s := List.mem_of_find?_eq_some ha
  rw [ha]
  simp only [Option.map_some', Option.map_map, Option.getD_some, Function.comp]
  rw [hval a hamem hqa, hD]

theorem sortedW_map_fst_perm (l : List ℚ) : ((sortedW l).map Prod.fst).Perm l := by
  have h1 : (sortedW l).Perm (wPairs l) := List.perm_insertionSort _ _
  have h2 := h1.map Prod.fst
  have h3 : (wPairs l).map Prod.fst = l := by
    unfold wPairs
    rw [List.map_map]
    exact List.enum_map_snd l
  rw [h3] at h2
  exact h2

theorem sortedW_map_fst_sorted (l : List ℚ) :
    List.Sorted (· ≤ ·) ((sortedW l).map Prod.fst) := by
  have h : List.Sorted rankRelW (sortedW l) := List.sorted_insertionSort _ _
  unfold List.Sorted at h ⊢
  rw [List.pairwise_map]
  refine h.imp ?_
  intro a b hab
  rcases hab with hab | ⟨hab, _⟩
  · exact le_of_lt hab
  · exact le_of_eq hab

theorem mem_wPairs {l : List ℚ} {v : ℚ} {i : ℕ} :
    (v, i) ∈ wPairs l ↔ l[i]? = some v := by
  unfold wPairs
  constructor
  · intro h
    obtain ⟨p, hp, he⟩ := List.mem_map.mp h
    obtain ⟨h1, h2⟩ := Prod.mk.injEq .. ▸ he
    have : p = (i, v) := by
      cases p
      simp_all
    subst this
    exact List.mk_mem_enum_iff_getElem?.mp hp
  · intro h
    exact List.mem_map.mpr ⟨(i, v), List.mk_mem_enum_iff_getElem?.mpr h, rfl⟩

/-- The whole-image rank pipeline computes dense ranks: the rank at
position `i` is the number of distinct values strictly smaller than
`l[i]`. -/
theorem denseRankAt_eq (l : List ℚ) (i : ℕ) (h : i < l.length) :
    denseRankAt l i = Dcount l l[i] := by
  unfold denseRankAt rankedW
  refine rank_lookup_eq (sortedW l) l (fun pr => pr.2 == i) l[i] ?_ ?_ ?_ ?_
  · exact sortedW_map_fst_perm l
  · exact sortedW_map_fst_sorted l
  · refine ⟨(l[i], i), ?_, by simp⟩
    have : (l[i], i) ∈ wPairs l := mem_wPairs.mpr (List.getElem?_eq_getElem h)
    exact ((List.perm_insertionSort _ _).mem_iff).mpr this
  · rintro ⟨w, j⟩ hmem hq
    simp only [beq_iff_eq] at hq
    subst hq
    have hmem2 : (w, j) ∈ wPairs l :=
      ((List.perm_insertionSort _ _).mem_iff).mp hmem
    have := mem_wPairs.mp hmem2
    rw [List.getElem?_eq_getElem h] at this
    exact (Option.some.injEq .. ▸ this).symm

theorem sortedO_map_fst_perm (vals : List ℚ) (labs : List ℕ)
    (hlen : vals.length ≤ labs.length) :
    ((sortedO vals labs).map Prod.fst).Perm vals := by
  have h1 : (sortedO vals labs).Perm (oPairs vals labs) := List.perm_insertionSort _ _
  have h2 := h1.map Prod.fst
  have h3 : (oPairs vals labs).map Prod.fst = vals := by
    unfold oPairs
    rw [List.map_map]
    have : (Prod.fst ∘ fun pr : ℕ × ℚ × ℕ => (pr.2.1, pr.2.2, pr.1))
        = (Prod.fst ∘ Prod.snd) := rfl
    rw [this, ← List.map_map, List.enum_map_snd, List.map_fst_zip _ _ hlen]
  rw [h3] at h2
  exact h2

theorem sortedO_map_fst_sorted (vals : List ℚ) (labs : List ℕ) :
    List.Sorted (· ≤ ·) ((sortedO vals labs).map Prod.fst) := by
  have h : List.Sorted rankRelO (sortedO vals labs) := List.sorted_insertionSort _ _
  unfold List.Sorted at h ⊢
  rw [List.pairwise_map]
  refine h.imp ?_
  intro a b hab
  rcases hab with hab | ⟨hab, _⟩
  · exact le_of_lt hab
  · exact le_of_eq hab

theorem mem_oPairs {vals : List ℚ} {labs : List ℕ} {v : ℚ} {lab i : ℕ} :
    (v, lab, i) ∈ oPairs vals labs ↔ (vals.zip labs)[i]? = some (v, lab) := by
  unfold oPairs
  constructor
  · intro h
    obtain ⟨p, hp, he⟩ := List.mem_map.mp h
    have : p = (i, v, lab) := by
      obtain ⟨p1, p2, p3⟩ := p
      simp only [Prod.mk.injEq] at he
      obtain ⟨e1, e2, e3⟩ := he
      subst e1; subst e2; subst e3; rfl
    subst this
    exact List.mk_mem_enum_iff_getElem?.mp hp
  · intro h
    exact List.mem_map.mpr ⟨(i, v, lab), List.mk_mem_enum_iff_getElem?.mpr h, rfl⟩

/-- The per-object rank pipeline also computes dense ranks over the pooled
value array: the secondary label key only permutes ties and never changes a
dense rank. -/
theorem denseRankAtO_eq (vals : List ℚ) (labs : List ℕ) (i : ℕ)
    (h : i < vals.length) (hlen : vals.length = labs.length) :
    denseRankAtO vals labs i = Dcount vals vals[i] := by
  unfold denseRankAtO rankedO
  refine rank_lookup_eq (sortedO vals labs) vals (fun pr => pr.2.2 == i) vals[i] ?_ ?_ ?_ ?_
  · exact sortedO_map_fst_perm vals labs (le_of_eq hlen)
  · exact sortedO_map_fst_sorted vals labs
  · have hz : i < (vals.zip labs).length := by
      rw [List.length_zip]
      omega
    have hki : i < labs.length := by omega
    refine ⟨(vals[i], labs[i], i), ?_, by simp⟩
    have : (vals[i], labs[i], i) ∈ oPairs vals labs := by
      apply mem_oPairs.mpr
      rw [List.getElem?_eq_getElem hz]
      congr 1
      exact List.getElem_zip ..
    exact ((List.perm_insertionSort _ _).mem_iff).mpr this
  · rintro ⟨w, lab, j⟩ hmem hq
    simp only [beq_iff_eq] at hq
    subst hq
    have hmem2 : (w, lab, j) ∈ oPairs vals labs :=
      ((List.perm_insertionSort _ _).mem_iff).mp hmem
    have hz : j < (vals.zip labs).length := by
      rw [List.length_zip]
      omega
    have := mem_oPairs.mp hmem2
    rw [List.getElem?_eq_getElem hz, List.getElem_zip] at this
    have := Option.some.injEq .. ▸ this
    exact congrArg Prod.fst this.symm

/-! ## Small facts about the float model -/

theorem F.mul_nan_left (x : F) : F.mul F.nan x = F.nan := by cases x <;> rfl

theorem F.mul_nan_right (x : F) : F.mul x F.nan = F.nan := by cases x <;> rfl

theorem F.add_nan_left (x : F) : F.add F.nan x = F.nan := by cases x <;> rfl

theorem F.add_nan_right (x : F) : F.add x F.nan = F.nan := by cases x <;> rfl

theorem F.sub_nan_right (x : F) : F.sub x F.nan = F.nan := by
  cases x <;> rfl

theorem F.flt_nan_right (x : F) : F.flt x F.nan = false := by cases x <;> rfl

theorem F.div_zero_zero : F.div (F.fin 0) (F.fin 0) = F.nan := by
  show (if (0:ℚ) = 0 then (if (0:ℚ) = 0 then F.nan else if (0:ℚ) < 0 then F.inf else F.ninf) else F.fin (0/0)) = F.nan
  simp

theorem F.div_fin_fin (a b : ℚ) (hb : b ≠ 0) :
    F.div (F.fin a) (F.fin b) = F.fin (a / b) := by
  show (if b = 0 then _ else F.fin (a/b)) = F.fin (a / b)
  simp [hb]

theorem F.div_self_fin (a : ℚ) (ha : a ≠ 0) :
    F.div (F.fin a) (F.fin a) = F.fin 1 := by
  rw [F.div_fin_fin a a ha, div_self ha]

theorem F.sqrt_fin_sq (a : ℚ) (h : 0 ≤ a) :
    F.sqrt (F.fin (a * a)) = F.fin a := by
  show (if a * a < 0 then F.nan else F.fin (Rat.sqrt (a * a))) = F.fin a
  rw [if_neg (not_lt.mpr (mul_self_nonneg a)), Rat.sqrt_eq, abs_of_nonneg h]

/-! ## Costes search loop: termination bound and fuel sufficiency -/

theorem costesLoop_count_pos (fi si : List ℚ) (a b : F) (fuel : ℕ) (i : ℚ) :
    1 ≤ (costesLoopAux fi si a b fuel i).2 := by
  cases fuel with
  | zero => simp [costesLoopAux]
  | succ f =>
      unfold costesLoopAux
      by_cases h1 : costesBreak fi si i (F.add (F.mul a (F.fin i)) b)
      · simp [h1]
      · by_cases h2 : dStep < i - dStep <;> simp [h1, h2]

theorem costesLoop_count_le (fi si : List ℚ) (a b : F) (fuel : ℕ) (i : ℚ) :
    (costesLoopAux fi si a b fuel i).2 ≤ fuel + 1 := by
  induction fuel generalizing i with
  | zero => simp [costesLoopAux]
  | succ f ih =>
      unfold costesLoopAux
      by_cases h1 : costesBreak fi si i (F.add (F.mul a (F.fin i)) b)
      · simp [h1]
      · by_cases h2 : dStep < i - dStep
        · simp only [h1, if_false, h2, if_true, Bool.false_eq_true]
          have := ih (i - dStep)
          omega
        · simp [h1, h2]

theorem costesLoop_fuel_succ (fi si : List ℚ) (a b : F) (fuel : ℕ) (i : ℚ)
    (h : i ≤ dStep * (fuel + 2)) :
    costesLoopAux fi si a b (fuel + 1) i = costesLoopAux fi si a b fuel i := by
  induction fuel generalizing i with
  | zero =>
      have hno : ¬ dStep < i - dStep := by
        unfold dStep at h ⊢
        intro hc
        norm_num at h hc
        linarith
      unfold costesLoopAux
      by_cases h1 : costesBreak fi si i (F.add (F.mul a (F.fin i)) b)
      · simp [h1]
      · simp [h1, hno]
  | succ f ih =>
      show costesLoopAux fi si a b (f + 1 + 1) i = costesLoopAux fi si a b (f + 1) i
      unfold costesLoopAux
      by_cases h1 : costesBreak fi si i (F.add (F.mul a (F.fin i)) b)
      · simp [h1]
      · by_cases h2 : dStep < i - dStep
        · simp only [h1, Bool.false_eq_true, if_false, h2, if_true]
          rw [ih (i - dStep) (by push_cast at h ⊢; linarith)]
        · simp [h1, h2]

theorem costesLoop_fuel_ge (fi si : List ℚ) (a b : F) (fuel : ℕ)
    (h : 254 ≤ fuel) :
    costesLoopAux fi si a b fuel 1 = costesLoopAux fi si a b 254 1 := by
  induction fuel, h using Nat.le_induction with
  | base => rfl
  | succ f hf ih =>
      rw [← ih]
      apply costesLoop_fuel_succ
      unfold dStep
      have : (254 : ℚ) + 2 ≤ (f : ℚ) + 2 := by
        have : (254 : ℚ) ≤ (f : ℚ) := by exact_mod_cast hf
        linarith
      calc (1 : ℚ) ≤ 3921568627 / 1000000000000 * (254 + 2) := by norm_num
    _ ≤ 3921568627 / 1000000000000 * ((f : ℚ) + 2) := by
        apply mul_le_mul_of_nonneg_left this
        norm_num

/-! ## The Costes slope on a zero-covariance population -/

theorem costesA_nan_of (fi si : List ℚ) (xv yv : ℚ)
    (hx : varF ((nonZeroPairs fi si).map Prod.fst) = F.fin xv)
    (hy : varF ((nonZeroPairs fi si).map Prod.snd) = F.fin yv)
    (hc : costesCovar fi si = F.fin 0)
    (hyx : yv ≤ xv) :
    costesA fi si = F.nan := by
  show F.div _ _ = F.nan
  rw [hx, hy, hc]
  have hd : F.sub (F.fin yv) (F.fin xv) = F.fin (yv - xv) := by
    simp [F.sub, F.add, F.neg]
    ring
  rw [hd]
  have hmul : F.mul (F.fin (yv - xv)) (F.fin (yv - xv)) = F.fin ((yv - xv) * (yv - xv)) := rfl
  have hcov : F.mul (F.fin 4) (F.mul (F.fin 0) (F.fin 0)) = F.fin 0 := by
    show F.fin (4 * (0 * 0)) = F.fin 0
    norm_num
  rw [hmul, hcov]
  have hradd : F.add (F.fin ((yv - xv) * (yv - xv))) (F.fin 0)
      = F.fin ((xv - yv) * (xv - yv)) := by
    show F.fin ((yv - xv) * (yv - xv) + 0) = F.fin ((xv - yv) * (xv - yv))
    ring_nf
  rw [hradd, F.sqrt_fin_sq (xv - yv) (by linarith)]
  have hnum : F.add (F.fin (yv - xv)) (F.fin (xv - yv)) = F.fin 0 := by
    show F.fin (yv - xv + (xv - yv)) = F.fin 0
    ring_nf
  have hden : F.mul (F.fin 2) (F.fin 0) = F.fin 0 := by
    show F.fin (2 * 0) = F.fin 0
    norm_num
  rw [hnum, hden, F.div_zero_zero]

theorem costesB_nan_of (fi si : List ℚ) (ha : costesA fi si = F.nan) :
    costesB fi si = F.nan := by
  show F.sub _ (F.mul (costesA fi si) _) = F.nan
  rw [ha, F.mul_nan_left, F.sub_nan_right]

/-! ## List arithmetic helpers -/

theorem sum_nonneg_list {l : List ℚ} (h : ∀ x ∈ l, 0 ≤ x) : 0 ≤ l.sum := by
  induction l with
  | nil => simp
  | cons a t ih =>
      simp only [List.sum_cons]
      have := h a (List.mem_cons_self _ _)
      have := ih (fun x hx => h x (List.mem_cons_of_mem _ hx))
      linarith

theorem sum_pos_of_mem {l : List ℚ} (hnn : ∀ x ∈ l, 0 ≤ x) {a : ℚ}
    (ha : a ∈ l) (hpos : 0 < a) : 0 < l.sum :=
  lt_of_lt_of_le hpos (List.single_le_sum hnn a ha)

theorem sum_eq_zero_of_nonneg {l : List ℚ} (h : ∀ x ∈ l, 0 ≤ x)
    (hz : l.sum = 0) : ∀ x ∈ l, x = 0 := by
  induction l with
  | nil => simp
  | cons a t ih =>
      simp only [List.sum_cons] at hz
      have ha := h a (List.mem_cons_self _ _)
      have ht : ∀ x ∈ t, 0 ≤ x := fun x hx => h x (List.mem_cons_of_mem _ hx)
      have hts := sum_nonneg_list ht
      have ha0 : a = 0 := by linarith
      have hts0 : t.sum = 0 := by linarith
      intro x hx
      rcases List.mem_cons.mp hx with rfl | hx
      · exact ha0
      · exact ih ht hts0 x hx

theorem ssdQ_nonneg (l : List ℚ) : 0 ≤ ssdQ l := by
  apply sum_nonneg_list
  intro x hx
  obtain ⟨y, _, rfl⟩ := List.mem_map.mp hx
  positivity

theorem ssdQ_pos {l : List ℚ} (h : ∃ x ∈ l, ∃ y ∈ l, x ≠ y) : 0 < ssdQ l := by
  rcases lt_or_eq_of_le (ssdQ_nonneg l) with hlt | heq
  · exact hlt
  · exfalso
    obtain ⟨x, hx, y, hy, hxy⟩ := h
    have hall := sum_eq_zero_of_nonneg (l := l.map (fun x => (x - meanQ l) ^ 2))
      (fun z hz => by
        obtain ⟨w, _, rfl⟩ := List.mem_map.mp hz
        positivity)
      heq.symm
    have hx0 : (x - meanQ l) ^ 2 = 0 := hall _ (List.mem_map.mpr ⟨x, hx, rfl⟩)
    have hy0 : (y - meanQ l) ^ 2 = 0 := hall _ (List.mem_map.mpr ⟨y, hy, rfl⟩)
    have hxm : x = meanQ l := by nlinarith [sq_nonneg (x - meanQ l)]
    have hym : y = meanQ l := by nlinarith [sq_nonneg (y - meanQ l)]
    exact hxy (hxm.trans hym.symm)

theorem map_sq_shift_sum (c : ℚ) (t : List ℚ) :
    (t.map (fun x => (c - x) ^ 2)).sum
      = (t.map (fun x => x ^ 2)).sum - 2 * c * t.sum + (t.length : ℚ) * c ^ 2 := by
  induction t with
  | nil => simp
  | cons a t ih =>
      simp only [List.map_cons, List.sum_cons, List.length_cons]
      push_cast
      rw [ih]
      ring

theorem n_sumsq_identity (c : ℚ) (t : List ℚ) :
    (((c :: t).length : ℚ)) * ((c :: t).map (fun x => x ^ 2)).sum - (c :: t).sum ^ 2
      = ((t.length : ℚ) * (t.map (fun x => x ^ 2)).sum - t.sum ^ 2)
        + (t.map (fun x => (c - x) ^ 2)).sum := by
  simp only [List.map_cons, List.sum_cons, List.length_cons]
  rw [map_sq_shift_sum]
  push_cast
  ring

theorem n_sumsq_nonneg (l : List ℚ) :
    0 ≤ (l.length : ℚ) * (l.map (fun x => x ^ 2)).sum - l.sum ^ 2 := by
  induction l with
  | nil => simp
  | cons c t ih =>
      rw [n_sumsq_identity]
      have h2 : 0 ≤ (t.map (fun x => (c - x) ^ 2)).sum := by
        apply sum_nonneg_list
        intro x hx
        obtain ⟨y, _, rfl⟩ := List.mem_map.mp hx
        positivity
      linarith

theorem n_sumsq_pos {l : List ℚ} (h : ∃ x ∈ l, ∃ y ∈ l, x ≠ y) :
    0 < (l.length : ℚ) * (l.map (fun x => x ^ 2)).sum - l.sum ^ 2 := by
  induction l with
  | nil => simp at h
  | cons c t ih =>
      rw [n_sumsq_identity]
      obtain ⟨x, hx, y, hy, hxy⟩ := h
      have hterm : ∀ z ∈ t, c ≠ z → 0 < (t.map (fun w => (c - w) ^ 2)).sum := by
        intro z hz hcz
        have hmem : (c - z) ^ 2 ∈ t.map (fun w => (c - w) ^ 2) :=
          List.mem_map.mpr ⟨z, hz, rfl⟩
        have hne : c - z ≠ 0 := sub_ne_zero.mpr hcz
        exact sum_pos_of_mem
          (fun w hw => by obtain ⟨u, _, rfl⟩ := List.mem_map.mp hw; positivity)
          hmem (by positivity)
      have hnn : 0 ≤ (t.map (fun w => (c - w) ^ 2)).sum := by
        apply sum_nonneg_list
        intro w hw
        obtain ⟨u, _, rfl⟩ := List.mem_map.mp hw
        positivity
      rcases List.mem_cons.mp hx with rfl | hxt
      · rcases List.mem_cons.mp hy with rfl | hyt
        · exact absurd rfl hxy
        · have := hterm y hyt hxy
          have := n_sumsq_nonneg t
          linarith
      · rcases List.mem_cons.mp hy with rfl | hyt
        · have := hterm x hxt (Ne.symm hxy)
          have := n_sumsq_nonneg t
          linarith
        · have := ih ⟨x, hxt, y, hyt, hxy⟩
          linarith

theorem listMaxQ_mem {l : List ℚ} (h : l ≠ []) : listMaxQ l ∈ l := by
  cases l with
  | nil => exact absurd rfl h
  | cons a t =>
      show t.foldl max a ∈ a :: t
      clear h
      induction t generalizing a with
      | nil => simp [List.foldl]
      | cons b t ih =>
          show t.foldl max (max a b) ∈ a :: b :: t
          rcases List.mem_cons.mp (ih (max a b)) with hm | hm
          · rcases max_choice a b with hab | hab
            · rw [hm, hab]; exact List.mem_cons_self _ _
            · rw [hm, hab]; exact List.mem_cons_of_mem _ (List.mem_cons_self _ _)
          · exact List.mem_cons_of_mem _ (List.mem_cons_of_mem _ hm)

theorem zipWith_self_eq_map {α β : Type} (f : α → α → β) (l : List α) :
    List.zipWith f l l = l.map (fun a => f a a) := by
  induction l with
  | nil => rfl
  | cons a t ih => simp [ih]

theorem selectQ_map_pred (l : List ℚ) (pb : ℚ → Bool) :
    selectQ l (l.map pb) = l.filter pb := by
  induction l with
  | nil => rfl
  | cons a t ih =>
      show (if pb a then a :: selectQ t (t.map pb) else selectQ t (t.map pb)) = _
      rw [List.filter_cons, ih]

theorem zipWith_mul_ones (l w : List ℚ) (hlen : l.length = w.length)
    (hw : ∀ x ∈ w, x = 1) : List.zipWith (· * ·) l w = l := by
  induction l generalizing w with
  | nil => rfl
  | cons a t ih =>
      cases w with
      | nil => simp at hlen
      | cons b m =>
          have hb : b = 1 := hw b (List.mem_cons_self _ _)
          simp only [List.zipWith_cons_cons, hb, mul_one]
          congr 1
          exact ih m (by simpa using hlen) (fun x hx => hw x (List.mem_cons_of_mem _ hx))

theorem denseRanks_length (l : List ℚ) : (denseRanks l).length = l.length := by
  simp [denseRanks]

theorem le_listMaxQ {l : List ℚ} {x : ℚ} (hx : x ∈ l) : x ≤ listMaxQ l := by
  cases l with
  | nil => simp at hx
  | cons a t =>
      show x ≤ t.foldl max a
      have key : ∀ (t : List ℚ) (a : ℚ), a ≤ t.foldl max a ∧ ∀ y ∈ t, y ≤ t.foldl max a := by
        intro t
        induction t with
        | nil => intro a; exact ⟨le_refl _, by simp⟩
        | cons b t ih =>
            intro a
            constructor
            · exact le_trans (le_max_left a b) (ih (max a b)).1
            · intro y hy
              rcases List.mem_cons.mp hy with rfl | hy
              · exact le_trans (le_max_right a y) (ih (max a y)).1
              · exact (ih (max a b)).2 y hy
      rcases List.mem_cons.mp hx with rfl | hx
      · exact (key t x).1
      · exact (key t a).2 x hx

/-! ## Identical-image evaluations of the whole-image metrics -/

theorem listMaxQ_pos {l : List ℚ} (hnn : ∀ x ∈ l, 0 ≤ x)
    (hnc : ∃ x ∈ l, ∃ y ∈ l, x ≠ y) : 0 < listMaxQ l := by
  obtain ⟨x, hx, y, hy, hxy⟩ := hnc
  rcases lt_trichotomy x y with h | h | h
  · exact lt_of_lt_of_le (lt_of_le_of_lt (hnn x hx) h) (le_listMaxQ hy)
  · exact absurd h hxy
  · exact lt_of_lt_of_le (lt_of_le_of_lt (hnn y hy) h) (le_listMaxQ hx)

theorem thrVal_nonneg {l : List ℚ} {p : ℚ} (hp0 : 0 ≤ p)
    (hmax : 0 ≤ listMaxQ l) : 0 ≤ thrVal p l := by
  unfold thrVal
  positivity

theorem thrVal_lt_max {l : List ℚ} {p : ℚ} (hp0 : 0 ≤ p) (hp : p < 100)
    (hmax : 0 < listMaxQ l) : thrVal p l < listMaxQ l := by
  unfold thrVal
  rw [div_lt_iff (by norm_num)]
  calc p * listMaxQ l < 100 * listMaxQ l := by
        exact mul_lt_mul_of_pos_right hp hmax
    _ = listMaxQ l * 100 := by ring

theorem filter_thr_sum_pos {l : List ℚ} {p : ℚ}
    (hnn : ∀ x ∈ l, 0 ≤ x) (hnc : ∃ x ∈ l, ∃ y ∈ l, x ≠ y)
    (hp0 : 0 ≤ p) (hp : p < 100) :
    0 < (l.filter (fun a => decide (thrVal p l < a))).sum := by
  have hne : l ≠ [] := by
    obtain ⟨x, hx, _⟩ := hnc
    intro hl
    rw [hl] at hx
    simp at hx
  have hmax := listMaxQ_pos hnn hnc
  have hthr := thrVal_lt_max hp0 hp hmax
  apply sum_pos_of_mem
    (fun x hx => hnn x (List.mem_of_mem_filter hx))
    (List.mem_filter.mpr ⟨listMaxQ_mem hne, by simpa using hthr⟩) hmax

theorem filter_thr_sumsq_pos {l : List ℚ} {p : ℚ}
    (hnn : ∀ x ∈ l, 0 ≤ x) (hnc : ∃ x ∈ l, ∃ y ∈ l, x ≠ y)
    (hp0 : 0 ≤ p) (hp : p < 100) :
    0 < ((l.filter (fun a => decide (thrVal p l < a))).map (fun x => x ^ 2)).sum := by
  have hne : l ≠ [] := by
    obtain ⟨x, hx, _⟩ := hnc
    intro hl
    rw [hl] at hx
    simp at hx
  have hmax := listMaxQ_pos hnn hnc
  have hthr := thrVal_lt_max hp0 hp hmax
  have hm : listMaxQ l ^ 2 ∈ (l.filter (fun a => decide (thrVal p l < a))).map (fun x => x ^ 2) :=
    List.mem_map.mpr ⟨listMaxQ l,
      List.mem_filter.mpr ⟨listMaxQ_mem hne, by simpa using hthr⟩, rfl⟩
  apply sum_pos_of_mem
    (fun x hx => by obtain ⟨y, _, rfl⟩ := List.mem_map.mp hx; positivity)
    hm (by positivity)

theorem combinedThreshW_self (p : ℚ) (l : List ℚ) :
    combinedThreshW p l l = l.map (fun a => decide (thrVal p l < a)) := by
  unfold combinedThreshW
  rw [zipWith_self_eq_map]
  apply List.map_congr_left
  intro a _
  exact Bool.and_self _

theorem M1W_self {l : List ℚ} {p : ℚ}
    (hnn : ∀ x ∈ l, 0 ≤ x) (hnc : ∃ x ∈ l, ∃ y ∈ l, x ≠ y)
    (hp0 : 0 ≤ p) (hp : p < 100) : M1W p l l = F.fin 1 := by
  unfold M1W totFiThrW
  rw [combinedThreshW_self, selectQ_map_pred]
  exact F.div_self_fin _ (ne_of_gt (filter_thr_sum_pos hnn hnc hp0 hp))

theorem M2W_self {l : List ℚ} {p : ℚ}
    (hnn : ∀ x ∈ l, 0 ≤ x) (hnc : ∃ x ∈ l, ∃ y ∈ l, x ≠ y)
    (hp0 : 0 ≤ p) (hp : p < 100) : M2W p l l = F.fin 1 := by
  unfold M2W totFiThrW
  rw [combinedThreshW_self, selectQ_map_pred]
  exact F.div_self_fin _ (ne_of_gt (filter_thr_sum_pos hnn hnc hp0 hp))

theorem weightsW_self (l : List ℚ) :
    weightsW l l = (denseRanks l).map (fun _ => (1 : ℚ)) := by
  unfold weightsW
  rw [zipWith_self_eq_map]
  apply List.map_congr_left
  intro a _
  have h0 : (((((a : ℤ) - (a : ℤ)).natAbs : ℕ)) : ℚ) = 0 := by simp
  rw [h0, sub_zero]
  have hR : (((max (natMax (denseRanks l)) (natMax (denseRanks l)) + 1 : ℕ)) : ℚ) ≠ 0 := by
    positivity
  exact div_self hR

theorem RWC1W_self {l : List ℚ} {p : ℚ}
    (hnn : ∀ x ∈ l, 0 ≤ x) (hnc : ∃ x ∈ l, ∃ y ∈ l, x ≠ y)
    (hp0 : 0 ≤ p) (hp : p < 100) : RWC1W p l l = F.fin 1 := by
  unfold RWC1W totFiThrW
  rw [weightsW_self, zipWith_mul_ones l _ (by simp [denseRanks_length]) (by simp),
    combinedThreshW_self, selectQ_map_pred]
  exact F.div_self_fin _ (ne_of_gt (filter_thr_sum_pos hnn hnc hp0 hp))

theorem RWC2W_self {l : List ℚ} {p : ℚ}
    (hnn : ∀ x ∈ l, 0 ≤ x) (hnc : ∃ x ∈ l, ∃ y ∈ l, x ≠ y)
    (hp0 : 0 ≤ p) (hp : p < 100) : RWC2W p l l = F.fin 1 := by
  unfold RWC2W totFiThrW
  rw [weightsW_self, zipWith_mul_ones l _ (by simp [denseRanks_length]) (by simp),
    combinedThreshW_self, selectQ_map_pred]
  exact F.div_self_fin _ (ne_of_gt (filter_thr_sum_pos hnn hnc hp0 hp))

theorem overlapW_self {l : List ℚ} {p : ℚ}
    (hnn : ∀ x ∈ l, 0 ≤ x) (hnc : ∃ x ∈ l, ∃ y ∈ l, x ≠ y)
    (hp0 : 0 ≤ p) (hp : p < 100) : overlapW p l l = F.fin 1 := by
  simp only [overlapW]
  rw [combinedThreshW_self, selectQ_map_pred]
  have hmm : (fun x : ℚ => x * x) = (fun x => x ^ 2) := by
    funext x
    ring
  rw [zipWith_self_eq_map, hmm]
  set P := ((l.filter (fun a => decide (thrVal p l < a))).map (fun x => x ^ 2)).sum with hP
  have hPpos : 0 < P := filter_thr_sumsq_pos hnn hnc hp0 hp
  rw [F.sqrt_fin_sq P (le_of_lt hPpos)]
  exact F.div_self_fin _ (ne_of_gt hPpos)

theorem corrW_self {l : List ℚ} (hnc : ∃ x ∈ l, ∃ y ∈ l, x ≠ y) :
    corrW l l = F.fin 1 := by
  unfold corrW covnumQ
  have hmm : (fun a b : ℚ => (a - meanQ l) * (b - meanQ l))
      = (fun a b : ℚ => (a - meanQ l) * (b - meanQ l)) := rfl
  rw [zipWith_self_eq_map]
  have hself : (l.map (fun a => (a - meanQ l) * (a - meanQ l))).sum = ssdQ l := by
    unfold ssdQ
    congr 1
    apply List.map_congr_left
    intro a _
    ring
  rw [hself]
  have hpos := ssdQ_pos hnc
  rw [F.sqrt_fin_sq (ssdQ l) (le_of_lt hpos)]
  exact F.div_self_fin _ (ne_of_gt hpos)

theorem slopeW_self {l : List ℚ} (hnc : ∃ x ∈ l, ∃ y ∈ l, x ≠ y) :
    slopeW l l = F.fin 1 := by
  unfold slopeW
  have h1 : (List.zipWith (· * ·) l l).sum = (l.map (fun x => x ^ 2)).sum := by
    rw [zipWith_self_eq_map]
    congr 1
    apply List.map_congr_left
    intro a _
    ring
  have h2 : l.sum * l.sum = l.sum ^ 2 := by ring
  rw [h1, h2]
  exact F.div_self_fin _ (ne_of_gt (n_sumsq_pos hnc))

/-! ## Remaining small helpers -/

theorem selectQ_all_false {m : List Bool} (hm : ∀ b ∈ m, b = false) :
    ∀ l : List ℚ, selectQ l m = [] := by
  induction m with
  | nil => intro l; cases l <;> rfl
  | cons b t ih =>
      intro l
      cases l with
      | nil => rfl
      | cons a l2 =>
          have hb : b = false := hm b (List.mem_cons_self _ _)
          show (if b then a :: selectQ l2 t else selectQ l2 t) = []
          rw [hb, if_neg (by simp)]
          exact ih (fun x hx => hm x (List.mem_cons_of_mem _ hx)) l2

theorem F.isNaN_eq_false_iff (x : F) : F.isNaN x = false ↔ x ≠ F.nan := by
  cases x <;> simp [F.isNaN]

theorem le_natMax {l : List ℕ} {x : ℕ} (hx : x ∈ l) : x ≤ natMax l := by
  induction l with
  | nil => simp at hx
  | cons a t ih =>
      show x ≤ max a (natMax t)
      rcases List.mem_cons.mp hx with rfl | hx
      · exact le_max_left _ _
      · exact le_trans (ih hx) (le_max_right _ _)

theorem natMax_le {l : List ℕ} {m : ℕ} (h : ∀ x ∈ l, x ≤ m) : natMax l ≤ m := by
  induction l with
  | nil => simp [natMax]
  | cons a t ih =>
      show max a (natMax t) ≤ m
      exact max_le (h a (List.mem_cons_self _ _))
        (ih (fun x hx => h x (List.mem_cons_of_mem _ hx)))

theorem combinedThreshO_getD (tff tss : List ℚ) (fp sp : List ℚ) (labs : List ℕ)
    (k : ℕ) (h1 : k < fp.length) (h2 : k < sp.length) (h3 : k < labs.length) :
    (combinedThreshO tff tss fp sp labs).getD k false =
      (decide (tff.getD (labs[k] - 1) 0 ≤ fp[k]) &&
        decide (tss.getD (labs[k] - 1) 0 ≤ sp[k])) := by
  induction fp generalizing sp labs k with
  | nil => simp at h1
  | cons a fp2 ih =>
      cases sp with
      | nil => simp at h2
      | cons b sp2 =>
          cases labs with
          | nil => simp at h3
          | cons lab labs2 =>
              cases k with
              | zero => rfl
              | succ k2 =>
                  show (combinedThreshO tff tss fp2 sp2 labs2).getD k2 false = _
                  exact ih sp2 labs2 k2 (by simpa using h1) (by simpa using h2)
                    (by simpa using h3)

theorem costesLoop_step_count (fi si : List ℚ) (a b : F) (fuel : ℕ) (i : ℚ)
    (hbrk : costesBreak fi si i (F.add (F.mul a (F.fin i)) b) = false)
    (hcond : dStep < i - dStep) :
    (costesLoopAux fi si a b (fuel + 1) i).2
      = (costesLoopAux fi si a b fuel (i - dStep)).2 + 1 := by
  unfold costesLoopAux
  simp only [hbrk, Bool.false_eq_true, if_false, hcond, if_true]
  cases fuel <;> rfl

/-! ## Claim theorems -/

/-- C2 counterexample: a pixel whose first-image intensity is +infinity, with
both mask bits true and a finite second intensity, is INCLUDED in the
combined validity mask — the code only excludes NaN via `~numpy.isnan`, so
the claim that a ±infinity pixel is excluded from the valid population is
false at this input. -/
theorem C2_infinity_not_excluded :
    combinedMask [F.inf] [F.fin 0] [true] [true] = [true] := rfl

/-- C2 amended: the combined validity mask is `mA ∧ mB ∧ ¬isnan(A) ∧
¬isnan(B)` evaluated elementwise: a pixel is excluded exactly when one of
its mask bits is false or one of its intensities is NaN; ±infinity
intensities do not exclude a pixel. -/
theorem C2_mask_excludes_only_nan (a b : List F) (ma mb : List Bool) (k : ℕ) :
    (combinedMask a b ma mb).getD k false = true ↔
      (ma.getD k false = true ∧ mb.getD k false = true ∧
        a.getD k F.nan ≠ F.nan ∧ b.getD k F.nan ≠ F.nan) := by
  induction a generalizing b ma mb k with
  | nil => simp [combinedMask]
  | cons x xs ih =>
      cases b with
      | nil => simp [combinedMask]
      | cons y ys =>
          cases ma with
          | nil => simp [combinedMask]
          | cons m ms =>
              cases mb with
              | nil => simp [combinedMask]
              | cons m2 ms2 =>
                  cases k with
                  | zero =>
                      show (m && m2 && !x.isNaN && !y.isNaN) = true ↔ _
                      simp only [Bool.and_eq_true, Bool.not_eq_true',
                        List.getD_cons_zero]
                      rw [F.isNaN_eq_false_iff, F.isNaN_eq_false_iff]
                      tauto
                  | succ k2 =>
                      show (combinedMask xs ys ms ms2).getD k2 false = true ↔ _
                      exact ih ys ms ms2 k2

/-- C3: the Costes threshold search loop, started at i = 1 with decrement
0.003921568627 while i > 0.003921568627, terminates for every input sample
pair and every slope/intercept (including degenerate NaN/inf ones) within at
most 255 executed iterations: recursion fuel 254 is never exhausted (the
result is invariant under any larger fuel), and a break decision — the
caught ValueError, modelled as the degenerate-set case of the Pearson
computation, or a non-positive correlation — terminates the loop accepting
the current threshold pair. -/
theorem C3_costes_loop_terminates (fi si : List ℚ) (a b : F) (fuel : ℕ)
    (h : 254 ≤ fuel) :
    costesLoopAux fi si a b fuel 1 = costesLoopAux fi si a b 254 1 ∧
    (costesLoopAux fi si a b fuel 1).2 ≤ 255 ∧
    (∀ i : ℚ, costesBreak fi si i (F.add (F.mul a (F.fin i)) b) = true →
      costesLoopAux fi si a b fuel i = ((i, F.add (F.mul a (F.fin i)) b), 1)) := by
  refine ⟨costesLoop_fuel_ge fi si a b fuel h, ?_, ?_⟩
  · rw [costesLoop_fuel_ge fi si a b fuel h]
    have := costesLoop_count_le fi si a b 254 1
    omega
  · intro i hbrk
    obtain ⟨f, rfl⟩ : ∃ f, fuel = f + 1 := ⟨fuel - 1, by omega⟩
    unfold costesLoopAux
    simp [hbrk]

theorem C3_costes_loop_terminates_witness :
    254 ≤ 300 ∧
    (costesLoopAux [1] [2] (F.fin 0) (F.fin 0) 300 1
        = costesLoopAux [1] [2] (F.fin 0) (F.fin 0) 254 1 ∧
      (costesLoopAux [1] [2] (F.fin 0) (F.fin 0) 300 1).2 ≤ 255 ∧
      (∀ i : ℚ,
        costesBreak [1] [2] i (F.add (F.mul (F.fin 0) (F.fin i)) (F.fin 0)) = true →
        costesLoopAux [1] [2] (F.fin 0) (F.fin 0) 300 i
          = ((i, F.add (F.mul (F.fin 0) (F.fin i)) (F.fin 0)), 1))) :=
  ⟨by norm_num, C3_costes_loop_terminates [1] [2] (F.fin 0) (F.fin 0) 300 (by norm_num)⟩

/-- C5: the whole-image combined threshold mask compares strictly
(`fi > p/100·max(fi)` in both channels), the per-object mask compares
non-strictly against the per-object maxima scaled by p/100, and for equal
cutoff values the two comparisons differ at exactly the samples that meet
both cutoffs with equality in at least one channel. -/
theorem C5_strict_nonstrict_asymmetry :
    (∀ (p : ℚ) (fi si : List ℚ) (k : ℕ),
      k < fi.length → k < si.length →
      (combinedThreshW p fi si).getD k false =
        (decide (p * listMaxQ fi / 100 < fi.getD k 0) &&
          decide (p * listMaxQ si / 100 < si.getD k 0))) ∧
    (∀ (p : ℚ) (fp sp : List ℚ) (labs : List ℕ) (n k : ℕ),
      k < fp.length → k < sp.length → k < labs.length →
      (combinedThreshO (tffList p fp labs n) (tffList p sp labs n) fp sp labs).getD k false =
        (decide ((tffList p fp labs n).getD (labs.getD k 0 - 1) 0 ≤ fp.getD k 0) &&
          decide ((tffList p sp labs n).getD (labs.getD k 0 - 1) 0 ≤ sp.getD k 0))) ∧
    (∀ (p : ℚ) (fp : List ℚ) (labs : List ℕ) (n j : ℕ), j < n →
      (tffList p fp labs n).getD j 0 = p / 100 * listMaxQ (groupVals fp labs (j + 1))) ∧
    (∀ t1 t2 x y : ℚ,
      (decide (t1 < x) && decide (t2 < y)) ≠ (decide (t1 ≤ x) && decide (t2 ≤ y)) ↔
        (t1 ≤ x ∧ t2 ≤ y ∧ (x = t1 ∨ y = t2))) := by
  refine ⟨?_, ?_, ?_, ?_⟩
  · intro p fi si k h1 h2
    have hlen : k < (combinedThreshW p fi si).length := by
      simp only [combinedThreshW, List.length_zipWith]
      omega
    rw [List.getD_eq_getElem _ _ hlen, List.getD_eq_getElem _ _ h1,
      List.getD_eq_getElem _ _ h2]
    simp only [combinedThreshW, List.getElem_zipWith, thrVal]
  · intro p fp sp labs n k h1 h2 h3
    rw [combinedThreshO_getD _ _ _ _ _ k h1 h2 h3,
      List.getD_eq_getElem _ _ h1, List.getD_eq_getElem _ _ h2,
      List.getD_eq_getElem _ _ h3]
  · intro p fp labs n j hj
    have hlen : j < (tffList p fp labs n).length := by
      simp only [tffList, ndmaxQ, List.length_map, List.length_range]
      omega
    rw [List.getD_eq_getElem _ _ hlen]
    simp [tffList, ndmaxQ, List.getElem_map, List.getElem_range]
  · intro t1 t2 x y
    constructor
    · intro hne
      by_cases h3 : t1 ≤ x
      · by_cases h4 : t2 ≤ y
        · refine ⟨h3, h4, ?_⟩
          by_cases h1 : t1 < x
          · by_cases h2 : t2 < y
            · exact absurd (by simp [h1, h2, h3, h4]) hne
            · exact Or.inr (le_antisymm (not_lt.mp h2) h4)
          · exact Or.inl (le_antisymm (not_lt.mp h1) h3)
        · have h2 : ¬ t2 < y := fun hh => h4 (le_of_lt hh)
          exact absurd (by simp [h2, h4]) hne
      · have h1 : ¬ t1 < x := fun hh => h3 (le_of_lt hh)
        exact absurd (by simp [h1, h3]) hne
    · rintro ⟨h3, h4, hor⟩
      rcases hor with rfl | rfl
      · simp [lt_irrefl, h4, h3]
      · simp [lt_irrefl, h3, h4]

theorem C5_strict_nonstrict_asymmetry_witness :
    ((0 : ℕ) < ([10, 20, 0, 0] : List ℚ).length ∧
      (combinedThreshW 15 [10, 20, 0, 0] [0, 0, 10, 20]).getD 0 false =
        (decide ((15 : ℚ) * listMaxQ [10, 20, 0, 0] / 100 <
            ([10, 20, 0, 0] : List ℚ).getD 0 0) &&
          decide ((15 : ℚ) * listMaxQ [0, 0, 10, 20] / 100 <
            ([0, 0, 10, 20] : List ℚ).getD 0 0))) ∧
    (combinedThreshO (tffList 15 [1, 2] [1, 1] 1) (tffList 15 [3, 4] [1, 1] 1)
        [1, 2] [3, 4] [1, 1]).getD 0 false =
      (decide ((tffList 15 [1, 2] [1, 1] 1).getD (([1, 1] : List ℕ).getD 0 0 - 1) 0 ≤
          ([1, 2] : List ℚ).getD 0 0) &&
        decide ((tffList 15 [3, 4] [1, 1] 1).getD (([1, 1] : List ℕ).getD 0 0 - 1) 0 ≤
          ([3, 4] : List ℚ).getD 0 0)) ∧
    (tffList 15 [1, 2] [1, 1] 1).getD 0 0 =
      15 / 100 * listMaxQ (groupVals [1, 2] [1, 1] 1) ∧
    ((decide ((3 : ℚ) < 3) && decide ((5 : ℚ) < 7)) ≠
        (decide ((3 : ℚ) ≤ 3) && decide ((5 : ℚ) ≤ 7)) ↔
      ((3 : ℚ) ≤ 3 ∧ (5 : ℚ) ≤ 7 ∧ ((3 : ℚ) = 3 ∨ (7 : ℚ) = 5))) :=
  ⟨⟨by norm_num,
      C5_strict_nonstrict_asymmetry.1 15 [10, 20, 0, 0] [0, 0, 10, 20] 0
        (by norm_num) (by norm_num)⟩,
    C5_strict_nonstrict_asymmetry.2.1 15 [1, 2] [3, 4] [1, 1] 1 0
      (by norm_num) (by norm_num) (by norm_num),
    C5_strict_nonstrict_asymmetry.2.2.1 15 [1, 2] [1, 1] 1 0 (by norm_num),
    C5_strict_nonstrict_asymmetry.2.2.2 3 5 3 7⟩

/-- C6: in per-object mode the Costes threshold pair is derived once, by the
whole-image search on the aligned valid samples (fi, si); it does not change
when the object data (pixels, labels, object count) changes, and the
per-object C1/C2 vectors are exactly the application of that single
whole-image-derived pair to the per-object arrays. -/
theorem C6_costes_threshold_once (fi si fp sp : List ℚ) (labs : List ℕ) (n : ℕ)
    (fp2 sp2 : List ℚ) (labs2 : List ℕ) (n2 : ℕ) :
    (objCostes fi si fp sp labs n).thr = (costesSearch fi si).1 ∧
    (objCostes fi si fp sp labs n).thr = (objCostes fi si fp2 sp2 labs2 n2).thr ∧
    (objCostes fi si fp sp labs n).C1 =
      (objCostesWith ((costesSearch fi si).1) fp sp labs n).1 ∧
    (objCostes fi si fp sp labs n).C2 =
      (objCostesWith ((costesSearch fi si).1) fp sp labs n).2 :=
  ⟨rfl, rfl, rfl, rfl⟩

/-- C7: the rank computation used by RWC assigns dense ranks: the rank of
the element at position `i` equals the number of distinct values in the
array strictly smaller than that element's value, so duplicates share a rank
and each next distinct value increments the rank by exactly 1. -/
theorem C7_dense_ranks (l : List ℚ) (i : ℕ) (h : i < l.length) :
    denseRankAt l i = (l.toFinset.filter (fun w => w < l[i])).card :=
  denseRankAt_eq l i h

theorem C7_dense_ranks_witness :
    (0 : ℕ) < ([3, 1, 1, 2] : List ℚ).length ∧
    denseRankAt [3, 1, 1, 2] 0 =
      ((([3, 1, 1, 2] : List ℚ).toFinset.filter (fun w => w < (3 : ℚ))).card) ∧
    denseRanks [3, 1, 1, 2] = [2, 0, 0, 1] :=
  ⟨by norm_num, by simpa using C7_dense_ranks [3, 1, 1, 2] 0 (by norm_num), by decide⟩

/-- C9: per-object dispatch edge cases: an object count of 0 yields
zero-length metric vectors for every metric and the hardcoded `"-"`
placeholder summary rows (not NaN, not a length-1 NaN vector); a positive
object count with an empty whole-image validity mask yields N-length NaN
vectors for every metric. -/
theorem C9_object_edge_cases (p : ℚ) (wfp wsp : List ℚ) (mask : List Bool)
    (fp sp : List ℚ) (labs : List ℕ) (n : ℕ) (rows : List RVal) :
    (n = 0 →
      runObjects p wfp wsp mask fp sp labs n =
        ⟨[], [], [], [], [], [], [], [], [], []⟩ ∧
      objReturnRows n rows = [RVal.dash, RVal.dash, RVal.dash, RVal.dash]) ∧
    (n ≠ 0 → mask.any id = false →
      runObjects p wfp wsp mask fp sp labs n =
        ⟨List.replicate n F.nan, List.replicate n F.nan, List.replicate n F.nan,
          List.replicate n F.nan, List.replicate n F.nan, List.replicate n F.nan,
          List.replicate n F.nan, List.replicate n F.nan, List.replicate n F.nan,
          List.replicate n F.nan⟩) := by
  constructor
  · intro hn
    subst hn
    exact ⟨by simp [runObjects], by simp [objReturnRows]⟩
  · intro hn hmask
    unfold runObjects
    rw [if_neg hn, hmask]
    simp

theorem C9_object_edge_cases_witness :
    (runObjects 15 [1] [1] [true] [1] [1] [1] 0 =
        ⟨[], [], [], [], [], [], [], [], [], []⟩ ∧
      objReturnRows 0 [] = [RVal.dash, RVal.dash, RVal.dash, RVal.dash]) ∧
    runObjects 15 [1] [1] [false] [1] [1] [1] 2 =
      ⟨List.replicate 2 F.nan, List.replicate 2 F.nan, List.replicate 2 F.nan,
        List.replicate 2 F.nan, List.replicate 2 F.nan, List.replicate 2 F.nan,
        List.replicate 2 F.nan, List.replicate 2 F.nan, List.replicate 2 F.nan,
        List.replicate 2 F.nan⟩ :=
  ⟨(C9_object_edge_cases 15 [1] [1] [true] [1] [1] [1] 0 []).1 rfl,
    (C9_object_edge_cases 15 [1] [1] [false] [1] [1] [1] 2 []).2
      (by norm_num) (by decide)⟩

/-- C8 counterexample: the claim quantifies over every identical image pair,
but for the constant pair A = B = [1/2, 1/2] (mask all true) the Pearson
correlation is 0/0 = NaN, not 1.0; and for the identical non-constant pair
[-2, -1] with negative intensities, no pixel exceeds the threshold
15%·max = -0.15 strictly in the code's sense of `fi > thr` being false for
both pixels, making M1 = 0/0 = NaN, not 1.0. -/
theorem C8_identical_counterexample :
    corrW [1/2, 1/2] [1/2, 1/2] = F.nan ∧
    M1W 15 [-2, -1] [-2, -1] = F.nan := by
  constructor
  · have h1 : covnumQ [1/2, 1/2] [1/2, 1/2] = 0 := by
      norm_num [covnumQ, meanQ]
    have h2 : ssdQ [1/2, 1/2] = 0 := by
      norm_num [ssdQ, meanQ]
    unfold corrW
    rw [h1, h2]
    rw [show ((0 : ℚ) * 0) = 0 * 0 from rfl, F.sqrt_fin_sq 0 le_rfl]
    exact F.div_zero_zero
  · have hcomb : combinedThreshW 15 [-2, -1] [-2, -1] = [false, false] := by
      norm_num [combinedThreshW, thrVal, listMaxQ]
    have hfil : ([-2, -1] : List ℚ).filter
        (fun a => decide (thrVal 15 [-2, -1] < a)) = [] := by
      norm_num [thrVal, listMaxQ]
    unfold M1W totFiThrW
    rw [hcomb, hfil]
    rw [show selectQ [-2, -1] [false, false] = [] from rfl]
    exact F.div_zero_zero

/-- C8 amended: for every identical pair (A ≡ B, mask all true) whose sample
array is nonnegative and non-constant (two distinct pixel values exist), and
every threshold percentage 0 ≤ p < 100, the whole-image metrics satisfy
Correlation = 1, Slope = 1, Overlap = 1, M1 = M2 = 1 and RWC1 = RWC2 = 1. -/
theorem C8_identical_images (l : List ℚ) (p : ℚ)
    (hnn : ∀ x ∈ l, 0 ≤ x) (hnc : ∃ x ∈ l, ∃ y ∈ l, x ≠ y)
    (hp0 : 0 ≤ p) (hp : p < 100) :
    corrW l l = F.fin 1 ∧ slopeW l l = F.fin 1 ∧ overlapW p l l = F.fin 1 ∧
    M1W p l l = F.fin 1 ∧ M2W p l l = F.fin 1 ∧
    RWC1W p l l = F.fin 1 ∧ RWC2W p l l = F.fin 1 :=
  ⟨corrW_self hnc, slopeW_self hnc, overlapW_self hnn hnc hp0 hp,
    M1W_self hnn hnc hp0 hp, M2W_self hnn hnc hp0 hp,
    RWC1W_self hnn hnc hp0 hp, RWC2W_self hnn hnc hp0 hp⟩

theorem C8_identical_images_witness :
    (∀ x ∈ ([0, 1/2] : List ℚ), 0 ≤ x) ∧ (0 : ℚ) ≤ 15 ∧ (15 : ℚ) < 100 ∧
    (corrW [0, 1/2] [0, 1/2] = F.fin 1 ∧ slopeW [0, 1/2] [0, 1/2] = F.fin 1 ∧
      overlapW 15 [0, 1/2] [0, 1/2] = F.fin 1 ∧
      M1W 15 [0, 1/2] [0, 1/2] = F.fin 1 ∧ M2W 15 [0, 1/2] [0, 1/2] = F.fin 1 ∧
      RWC1W 15 [0, 1/2] [0, 1/2] = F.fin 1 ∧
      RWC2W 15 [0, 1/2] [0, 1/2] = F.fin 1) :=
  ⟨by norm_num, by norm_num, by norm_num,
    C8_identical_images [0, 1/2] 15 (by norm_num)
      ⟨0, by norm_num, 1/2, by norm_num, by norm_num⟩ (by norm_num) (by norm_num)⟩

/-- C1 evaluation at the claim's own example (fi = [10,20,0,0],
si = [0,0,10,20], fully valid masks so the samples are the arrays
themselves, threshold percentage 15): the strict combined threshold mask is
empty while the valid population is not; Manders M1/M2 and RWC1/RWC2
evaluate to 0/30 = 0 as the claim states, but Overlap, K1 and K2 evaluate to
0.0/0.0 = NaN, not 0 — the whole-image branch lacks the
`numpy.any(combined_thresh)` guard present in the per-object branch (and its
dead `overlap = 0` / `M1 = 0` / `RWC1 = 0` initializations indicate the zero
sentinel was the intent). -/
theorem C1_empty_thresh_eval :
    combinedThreshW 15 [10, 20, 0, 0] [0, 0, 10, 20] =
      [false, false, false, false] ∧
    M1W 15 [10, 20, 0, 0] [0, 0, 10, 20] = F.fin 0 ∧
    M2W 15 [10, 20, 0, 0] [0, 0, 10, 20] = F.fin 0 ∧
    RWC1W 15 [10, 20, 0, 0] [0, 0, 10, 20] = F.fin 0 ∧
    RWC2W 15 [10, 20, 0, 0] [0, 0, 10, 20] = F.fin 0 ∧
    overlapW 15 [10, 20, 0, 0] [0, 0, 10, 20] = F.nan ∧
    K1W 15 [10, 20, 0, 0] [0, 0, 10, 20] = F.nan ∧
    K2W 15 [10, 20, 0, 0] [0, 0, 10, 20] = F.nan := by
  have hcomb : combinedThreshW 15 [10, 20, 0, 0] [0, 0, 10, 20] =
      [false, false, false, false] := by
    norm_num [combinedThreshW, thrVal, listMaxQ]
  have hfi : ([10, 20, 0, 0] : List ℚ).filter
      (fun a => decide (thrVal 15 [10, 20, 0, 0] < a)) = [10, 20] := by
    norm_num [thrVal, listMaxQ]
  have hsi : ([0, 0, 10, 20] : List ℚ).filter
      (fun a => decide (thrVal 15 [0, 0, 10, 20] < a)) = [10, 20] := by
    norm_num [thrVal, listMaxQ]
  have href : ∀ l2 : List ℚ, selectQ l2 [false, false, false, false] = [] :=
    fun l2 => selectQ_all_false (by simp) l2
  have hdiv0 : F.div (F.fin ([] : List ℚ).sum) (F.fin (([10, 20] : List ℚ).sum))
      = F.fin 0 := by
    rw [show (([10, 20] : List ℚ).sum) = 30 by norm_num,
      show (([] : List ℚ).sum) = 0 from rfl, F.div_fin_fin 0 30 (by norm_num)]
    norm_num
  refine ⟨hcomb, ?_, ?_, ?_, ?_, ?_, ?_, ?_⟩
  · unfold M1W totFiThrW
    rw [hcomb, hfi, href]
    exact hdiv0
  · unfold M2W totFiThrW
    rw [hcomb, hsi, href]
    exact hdiv0
  · unfold RWC1W totFiThrW
    rw [hcomb, hfi, href]
    exact hdiv0
  · unfold RWC2W totFiThrW
    rw [hcomb, hsi, href]
    exact hdiv0
  · simp only [overlapW]
    rw [hcomb, href, href]
    rw [show ((([] : List ℚ).map (fun x => x ^ 2)).sum *
        (([] : List ℚ).map (fun x => x ^ 2)).sum) = 0 * 0 by norm_num]
    rw [F.sqrt_fin_sq 0 le_rfl]
    rw [show (List.zipWith (· * ·) ([] : List ℚ) ([] : List ℚ)).sum = 0 from rfl]
    exact F.div_zero_zero
  · simp only [K1W]
    rw [hcomb, href, href]
    rw [show (List.zipWith (· * ·) ([] : List ℚ) ([] : List ℚ)).sum = 0 from rfl,
      show ((([] : List ℚ).map (fun x => x ^ 2)).sum) = 0 from rfl]
    exact F.div_zero_zero
  · simp only [K2W]
    rw [hcomb, href, href]
    rw [show (List.zipWith (· * ·) ([] : List ℚ) ([] : List ℚ)).sum = 0 from rfl,
      show ((([] : List ℚ).map (fun x => x ^ 2)).sum) = 0 from rfl]
    exact F.div_zero_zero

/-- C4 counterexample: on fi = [1/5, 1/5, 2/5, 2/5, 1],
si = [1/5, 1/5, 2/5, 2/5, 8/35] the covariance estimate over the nonzero
population is exactly 0, yet the search does NOT terminate immediately at
i = 1: the slope is NaN (0/0), the trial Tsi is NaN, the below-threshold set
at i = 1 is the four pairs with fi < 1 and has strictly positive
correlation, so the loop decrements and executes at least a second
iteration.  There is no cov ≈ 0 guard in the code. -/
theorem C4_cov_zero_counterexample :
    costesCovar [1/5, 1/5, 2/5, 2/5, 1] [1/5, 1/5, 2/5, 2/5, 8/35] = F.fin 0 ∧
    2 ≤ (costesSearch [1/5, 1/5, 2/5, 2/5, 1] [1/5, 1/5, 2/5, 2/5, 8/35]).2 := by
  have hnz : nonZeroPairs [1/5, 1/5, 2/5, 2/5, 1] [1/5, 1/5, 2/5, 2/5, 8/35]
      = [(1/5, 1/5), (1/5, 1/5), (2/5, 2/5), (2/5, 2/5), (1, 8/35)] := by
    norm_num [nonZeroPairs]
  have hx : varF ((nonZeroPairs [1/5, 1/5, 2/5, 2/5, 1]
      [1/5, 1/5, 2/5, 2/5, 8/35]).map Prod.fst) = F.fin (27/250) := by
    rw [hnz]
    norm_num [varF, ssdQ, meanQ]
  have hy : varF ((nonZeroPairs [1/5, 1/5, 2/5, 2/5, 1]
      [1/5, 1/5, 2/5, 2/5, 8/35]).map Prod.snd) = F.fin (27/2450) := by
    rw [hnz]
    norm_num [varF, ssdQ, meanQ]
  have hzv : varF ((nonZeroPairs [1/5, 1/5, 2/5, 2/5, 1]
      [1/5, 1/5, 2/5, 2/5, 8/35]).map (fun pr => pr.1 + pr.2))
      = F.fin (729/6125) := by
    rw [hnz]
    norm_num [varF, ssdQ, meanQ]
  have hcov : costesCovar [1/5, 1/5, 2/5, 2/5, 1] [1/5, 1/5, 2/5, 2/5, 8/35]
      = F.fin 0 := by
    simp only [costesCovar]
    rw [hx, hy, hzv]
    show F.mul (F.fin (1/2)) (F.add (F.fin (729/6125))
      (F.neg (F.add (F.fin (27/250)) (F.fin (27/2450))))) = F.fin 0
    show F.fin (1/2 * (729/6125 + -(27/250 + 27/2450))) = F.fin 0
    norm_num
  refine ⟨hcov, ?_⟩
  have hA : costesA [1/5, 1/5, 2/5, 2/5, 1] [1/5, 1/5, 2/5, 2/5, 8/35] = F.nan :=
    costesA_nan_of _ _ _ _ hx hy hcov (by norm_num)
  have hB : costesB [1/5, 1/5, 2/5, 2/5, 1] [1/5, 1/5, 2/5, 2/5, 8/35] = F.nan :=
    costesB_nan_of _ _ hA
  have htsi : F.add (F.mul (costesA [1/5, 1/5, 2/5, 2/5, 1]
        [1/5, 1/5, 2/5, 2/5, 8/35]) (F.fin 1))
      (costesB [1/5, 1/5, 2/5, 2/5, 1] [1/5, 1/5, 2/5, 2/5, 8/35]) = F.nan := by
    rw [hA, hB, F.mul_nan_left, F.add_nan_right]
  have hbrk : costesBreak [1/5, 1/5, 2/5, 2/5, 1] [1/5, 1/5, 2/5, 2/5, 8/35] 1
      (F.add (F.mul (costesA [1/5, 1/5, 2/5, 2/5, 1]
          [1/5, 1/5, 2/5, 2/5, 8/35]) (F.fin 1))
        (costesB [1/5, 1/5, 2/5, 2/5, 1] [1/5, 1/5, 2/5, 2/5, 8/35])) = false := by
    rw [htsi]
    unfold costesBreak
    have hfil : ((([1/5, 1/5, 2/5, 2/5, 1] : List ℚ).zip
          ([1/5, 1/5, 2/5, 2/5, 8/35] : List ℚ)).filter
        (fun pr => decide (pr.1 < (1 : ℚ)) || F.flt (F.fin pr.2) F.nan))
        = [(1/5, 1/5), (1/5, 1/5), (2/5, 2/5), (2/5, 2/5)] := by
      norm_num [F.flt_nan_right]
    rw [hfil]
    have hpn : pearsonNonPos [(1/5, 1/5), (1/5, 1/5), (2/5, 2/5), (2/5, 2/5)]
        = some false := by
      norm_num [pearsonNonPos, ssdQ, covnumQ, meanQ]
    show (match pearsonNonPos [(1/5, 1/5), (1/5, 1/5), (2/5, 2/5), (2/5, 2/5)] with
      | none => true
      | some b => b) = false
    rw [hpn]
  have hcond : dStep < 1 - dStep := by norm_num [dStep]
  show 2 ≤ (costesLoopAux [1/5, 1/5, 2/5, 2/5, 1] [1/5, 1/5, 2/5, 2/5, 8/35]
    (costesA [1/5, 1/5, 2/5, 2/5, 1] [1/5, 1/5, 2/5, 2/5, 8/35])
    (costesB [1/5, 1/5, 2/5, 2/5, 1] [1/5, 1/5, 2/5, 2/5, 8/35]) 254 1).2
  rw [show (254 : ℕ) = 253 + 1 from rfl,
    costesLoop_step_count _ _ _ _ 253 1 hbrk hcond]
  have := costesLoop_count_pos [1/5, 1/5, 2/5, 2/5, 1] [1/5, 1/5, 2/5, 2/5, 8/35]
    (costesA [1/5, 1/5, 2/5, 2/5, 1] [1/5, 1/5, 2/5, 2/5, 8/35])
    (costesB [1/5, 1/5, 2/5, 2/5, 1] [1/5, 1/5, 2/5, 2/5, 8/35]) 253 (1 - dStep)
  omega

/-- C4 amended: the code contains no cov ≈ 0 guard.  When the covariance
estimate is exactly 0 and varS ≤ varF (so the slope numerator
`(yvar-xvar) + sqrt((yvar-xvar)²)` is 0), the slope is NaN = 0/0 rather than
an infinity, the intercept is NaN, every trial threshold Tsi = a·i + b is
NaN, and the below-threshold set degenerates to {fi < i}; the search then
proceeds like any other iteration sequence (terminating within the
255-iteration bound) instead of stopping at i = 1. -/
theorem C4_cov_zero_no_guard (fi si : List ℚ) (xv yv : ℚ)
    (hx : varF ((nonZeroPairs fi si).map Prod.fst) = F.fin xv)
    (hy : varF ((nonZeroPairs fi si).map Prod.snd) = F.fin yv)
    (hc : costesCovar fi si = F.fin 0) (hyx : yv ≤ xv) :
    costesA fi si = F.nan ∧ costesB fi si = F.nan ∧
    (∀ i : ℚ, F.add (F.mul (costesA fi si) (F.fin i)) (costesB fi si) = F.nan) ∧
    (∀ i : ℚ,
      (fi.zip si).filter
          (fun pr => decide (pr.1 < i) || F.flt (F.fin pr.2)
            (F.add (F.mul (costesA fi si) (F.fin i)) (costesB fi si)))
        = (fi.zip si).filter (fun pr => decide (pr.1 < i))) := by
  have hA := costesA_nan_of fi si xv yv hx hy hc hyx
  have hB := costesB_nan_of fi si hA
  refine ⟨hA, hB, ?_, ?_⟩
  · intro i
    rw [hA, hB, F.mul_nan_left, F.add_nan_right]
  · intro i
    apply List.filter_congr
    intro pr _
    rw [hA, hB, F.mul_nan_left, F.add_nan_right, F.flt_nan_right, Bool.or_false]

theorem C4_cov_zero_no_guard_witness :
    varF ((nonZeroPairs [1/5, 1/5, 2/5, 2/5, 1]
        [1/5, 1/5, 2/5, 2/5, 8/35]).map Prod.fst) = F.fin (27/250) ∧
    (costesA [1/5, 1/5, 2/5, 2/5, 1] [1/5, 1/5, 2/5, 2/5, 8/35] = F.nan ∧
      costesB [1/5, 1/5, 2/5, 2/5, 1] [1/5, 1/5, 2/5, 2/5, 8/35] = F.nan ∧
      (∀ i : ℚ, F.add (F.mul (costesA [1/5, 1/5, 2/5, 2/5, 1]
            [1/5, 1/5, 2/5, 2/5, 8/35]) (F.fin i))
          (costesB [1/5, 1/5, 2/5, 2/5, 1] [1/5, 1/5, 2/5, 2/5, 8/35]) = F.nan) ∧
      (∀ i : ℚ,
        ((([1/5, 1/5, 2/5, 2/5, 1] : List ℚ).zip
            ([1/5, 1/5, 2/5, 2/5, 8/35] : List ℚ)).filter
            (fun pr => decide (pr.1 < i) || F.flt (F.fin pr.2)
              (F.add (F.mul (costesA [1/5, 1/5, 2/5, 2/5, 1]
                  [1/5, 1/5, 2/5, 2/5, 8/35]) (F.fin i))
                (costesB [1/5, 1/5, 2/5, 2/5, 1] [1/5, 1/5, 2/5, 2/5, 8/35]))))
          = (([1/5, 1/5, 2/5, 2/5, 1] : List ℚ).zip
              ([1/5, 1/5, 2/5, 2/5, 8/35] : List ℚ)).filter
              (fun pr => decide (pr.1 < i)))) := by
  have hnz : nonZeroPairs [1/5, 1/5, 2/5, 2/5, 1] [1/5, 1/5, 2/5, 2/5, 8/35]
      = [(1/5, 1/5), (1/5, 1/5), (2/5, 2/5), (2/5, 2/5), (1, 8/35)] := by
    norm_num [nonZeroPairs]
  have hx : varF ((nonZeroPairs [1/5, 1/5, 2/5, 2/5, 1]
      [1/5, 1/5, 2/5, 2/5, 8/35]).map Prod.fst) = F.fin (27/250) := by
    rw [hnz]
    norm_num [varF, ssdQ, meanQ]
  have hy : varF ((nonZeroPairs [1/5, 1/5, 2/5, 2/5, 1]
      [1/5, 1/5, 2/5, 2/5, 8/35]).map Prod.snd) = F.fin (27/2450) := by
    rw [hnz]
    norm_num [varF, ssdQ, meanQ]
  have hzv : varF ((nonZeroPairs [1/5, 1/5, 2/5, 2/5, 1]
      [1/5, 1/5, 2/5, 2/5, 8/35]).map (fun pr => pr.1 + pr.2))
      = F.fin (729/6125) := by
    rw [hnz]
    norm_num [varF, ssdQ, meanQ]
  have hcov : costesCovar [1/5, 1/5, 2/5, 2/5, 1] [1/5, 1/5, 2/5, 2/5, 8/35]
      = F.fin 0 := by
    simp only [costesCovar]
    rw [hx, hy, hzv]
    show F.fin (1/2 * (729/6125 + -(27/250 + 27/2450))) = F.fin 0
    norm_num
  exact ⟨hx, C4_cov_zero_no_guard [1/5, 1/5, 2/5, 2/5, 1]
    [1/5, 1/5, 2/5, 2/5, 8/35] (27/250) (27/2450) hx hy hcov (by norm_num)⟩

/-- C10: the per-object RWC rank arrays and normalizer R = 1 + max(rank) are
computed once over the pooled samples of all objects of a label map, so for
every label map with at least two distinct labels there are intensity
assignments that agree on every pixel of the first label but differ in the
other objects, and give that first-label pixel different RWC weights. -/
theorem C10_pooled_rwc_weights (labs : List ℕ) (l1 l2 : ℕ)
    (h1 : l1 ∈ labs) (h2 : l2 ∈ labs) (hne : l1 ≠ l2) :
    ∃ (fp sp fp2 sp2 : List ℚ) (k : ℕ),
      k < labs.length ∧ labs.getD k 0 = l1 ∧
      (∀ j : ℕ, labs.getD j 0 = l1 →
        fp.getD j 0 = fp2.getD j 0 ∧ sp.getD j 0 = sp2.getD j 0) ∧
      (weightsO fp sp labs).getD k 0 ≠ (weightsO fp2 sp2 labs).getD k 0 := by
  obtain ⟨k, hk, hlabk⟩ := List.mem_iff_getElem.mp h1
  refine ⟨labs.map (fun _ => (1 : ℚ)), labs.map (fun _ => (0 : ℚ)),
    labs.map (fun lab => if lab = l1 then (1 : ℚ) else 0),
    labs.map (fun _ => (0 : ℚ)), k, hk, ?_, ?_, ?_⟩
  · rw [List.getD_eq_getElem _ _ hk, hlabk]
  · intro j hj
    by_cases hjl : j < labs.length
    · have hjv : labs[j] = l1 := by
        rw [List.getD_eq_getElem _ _ hjl] at hj
        exact hj
      refine ⟨?_, rfl⟩
      rw [List.getD_eq_getElem _ _ (by simpa using hjl),
        List.getD_eq_getElem _ _ (by simpa using hjl),
        List.getElem_map, List.getElem_map, hjv, if_pos rfl]
    · have hd : ∀ g : ℕ → ℚ, (labs.map g).getD j 0 = 0 := by
        intro g
        apply List.getD_eq_default
        simpa using not_lt.mp hjl
      exact ⟨by rw [hd (fun _ => (1 : ℚ)), hd (fun lab => if lab = l1 then (1 : ℚ) else 0)], rfl⟩
  · -- compute the two weights at position k: 1 for the constant assignment,
    -- 1/2 once the other label's pixels are lowered to 0
    set fpA := labs.map (fun _ => (1 : ℚ)) with hfpA
    set spZ := labs.map (fun _ => (0 : ℚ)) with hspZ
    set fpB := labs.map (fun lab => if lab = l1 then (1 : ℚ) else 0) with hfpB
    have hlenA : fpA.length = labs.length := by simp [hfpA]
    have hlenZ : spZ.length = labs.length := by simp [hspZ]
    have hlenB : fpB.length = labs.length := by simp [hfpB]
    have hDA : Dcount fpA 1 = 0 := by
      apply Dcount_eq_zero_of_min
      intro x hx
      obtain ⟨lab, _, rfl⟩ := List.mem_map.mp hx
      exact le_refl _
    have hDZ : Dcount spZ 0 = 0 := by
      apply Dcount_eq_zero_of_min
      intro x hx
      obtain ⟨lab, _, rfl⟩ := List.mem_map.mp hx
      exact le_refl _
    have hDB0 : Dcount fpB 0 = 0 := by
      apply Dcount_eq_zero_of_min
      intro x hx
      obtain ⟨lab, _, rfl⟩ := List.mem_map.mp hx
      by_cases hl : lab = l1 <;> simp [hl]
    have h0mem : (0 : ℚ) ∈ fpB := by
      refine List.mem_map.mpr ⟨l2, h2, ?_⟩
      rw [if_neg (fun hq => hne hq.symm)]
    have hDB1 : Dcount fpB 1 = 1 := by
      unfold Dcount
      have hsub : fpB.toFinset.filter (fun w => w < 1) = {(0 : ℚ)} := by
        ext w
        simp only [Finset.mem_filter, List.mem_toFinset, Finset.mem_singleton]
        constructor
        · rintro ⟨hw, hlt⟩
          obtain ⟨lab, _, rfl⟩ := List.mem_map.mp hw
          by_cases hl : lab = l1
          · rw [if_pos hl] at hlt
            norm_num at hlt
          · rw [if_neg hl]
        · rintro rfl
          exact ⟨h0mem, by norm_num⟩
      rw [hsub, Finset.card_singleton]
    have entryA : ∀ (j : ℕ), j < labs.length → denseRankAtO fpA labs j = 0 := by
      intro j hj
      have hj2 : j < fpA.length := by omega
      rw [denseRankAtO_eq fpA labs j hj2 hlenA]
      have hv : fpA[j] = 1 := by simp [hfpA]
      rw [hv]
      exact hDA
    have entryZ : ∀ (j : ℕ), j < labs.length → denseRankAtO spZ labs j = 0 := by
      intro j hj
      have hj2 : j < spZ.length := by omega
      rw [denseRankAtO_eq spZ labs j hj2 hlenZ]
      have hv : spZ[j] = 0 := by simp [hspZ]
      rw [hv]
      exact hDZ
    have entryB : ∀ (j : ℕ), j < labs.length →
        denseRankAtO fpB labs j = (if labs.getD j 0 = l1 then 1 else 0) := by
      intro j hj
      have hj2 : j < fpB.length := by omega
      rw [denseRankAtO_eq fpB labs j hj2 hlenB]
      have hv : fpB[j] = (if labs[j] = l1 then (1 : ℚ) else 0) := by
        simp [hfpB]
      rw [hv, List.getD_eq_getElem _ _ hj]
      by_cases hl : labs[j] = l1
      · rw [if_pos hl, if_pos hl]
        exact hDB1
      · rw [if_neg hl, if_neg hl]
        exact hDB0
    have hmemRank : ∀ (v : List ℚ), v.length = labs.length →
        ∀ x ∈ denseRanksO v labs, ∃ j, j < labs.length ∧ x = denseRankAtO v labs j := by
      intro v hv x hx
      obtain ⟨j, hj, rfl⟩ := List.mem_map.mp hx
      exact ⟨j, by rw [← hv]; simpa using List.mem_range.mp hj,
        rfl⟩
    have maxA : natMax (denseRanksO fpA labs) = 0 := by
      apply Nat.le_zero.mp
      apply natMax_le
      intro x hx
      obtain ⟨j, hj, rfl⟩ := hmemRank fpA hlenA x hx
      rw [entryA j hj]
    have maxZ : natMax (denseRanksO spZ labs) = 0 := by
      apply Nat.le_zero.mp
      apply natMax_le
      intro x hx
      obtain ⟨j, hj, rfl⟩ := hmemRank spZ hlenZ x hx
      rw [entryZ j hj]
    have maxB : natMax (denseRanksO fpB labs) = 1 := by
      apply le_antisymm
      · apply natMax_le
        intro x hx
        obtain ⟨j, hj, rfl⟩ := hmemRank fpB hlenB x hx
        rw [entryB j hj]
        by_cases hl : labs.getD j 0 = l1
        · rw [if_pos hl]
        · rw [if_neg hl]
          omega
      · have hmem1 : denseRankAtO fpB labs k ∈ denseRanksO fpB labs :=
          List.mem_map.mpr ⟨k, List.mem_range.mpr (by omega), rfl⟩
        have hval : denseRankAtO fpB labs k = 1 := by
          rw [entryB k hk, List.getD_eq_getElem _ _ hk, if_pos hlabk]
        rw [← hval]
        exact le_natMax hmem1
    have hget : ∀ (v : List ℚ) (hv : v.length = labs.length),
        ∀ h : k < (denseRanksO v labs).length,
        (denseRanksO v labs)[k] = denseRankAtO v labs k := by
      intro v hv h
      simp [denseRanksO]
    have hwval : ∀ (fp0 sp0 : List ℚ), fp0.length = labs.length →
        sp0.length = labs.length →
        (weightsO fp0 sp0 labs).getD k 0 =
          ((((max (natMax (denseRanksO fp0 labs)) (natMax (denseRanksO sp0 labs)) + 1 : ℕ)) : ℚ) -
            (((((denseRankAtO fp0 labs k) : ℤ) - ((denseRankAtO sp0 labs k) : ℤ)).natAbs : ℕ) : ℚ)) /
          (((max (natMax (denseRanksO fp0 labs)) (natMax (denseRanksO sp0 labs)) + 1 : ℕ)) : ℚ) := by
      intro fp0 sp0 hf hs
      have hlw : k < (weightsO fp0 sp0 labs).length := by
        simp only [weightsO, List.length_zipWith, denseRanksO, List.length_map,
          List.length_range]
        omega
      rw [List.getD_eq_getElem _ _ hlw]
      simp only [weightsO, List.getElem_zipWith]
      congr 2 <;> simp [denseRanksO]
    rw [hwval fpA spZ hlenA hlenZ, hwval fpB spZ hlenB hlenZ, maxA, maxZ, maxB,
      entryA k hk, entryZ k hk]
    have hBk : denseRankAtO fpB labs k = 1 := by
      rw [entryB k hk, List.getD_eq_getElem _ _ hk, if_pos hlabk]
    rw [hBk]
    norm_num

theorem C10_pooled_rwc_weights_witness :
    ∃ (fp sp fp2 sp2 : List ℚ) (k : ℕ),
      k < ([1, 2] : List ℕ).length ∧ ([1, 2] : List ℕ).getD k 0 = 1 ∧
      (∀ j : ℕ, ([1, 2] : List ℕ).getD j 0 = 1 →
        fp.getD j 0 = fp2.getD j 0 ∧ sp.getD j 0 = sp2.getD j 0) ∧
      (weightsO fp sp [1, 2]).getD k 0 ≠ (weightsO fp2 sp2 [1, 2]).getD k 0 :=
  C10_pooled_rwc_weights [1, 2] 1 2 (by decide) (by decide) (by decide)

end MC
